import Mathlib

/-!
# LRU cache (`cache/lru/lru.go`)

A shallow embedding of the `Cache` type of `cache/lru/lru.go` and of its
operations `New`, `Add`, `Get` and `RemoveOldest`.

Memory model.  A `*list.Element` is an address (a natural number).  The
doubly-linked list `entryList` is the list of the addresses of its elements,
front first; `heap` gives the `*entry` each element holds; `next` is the next
address `PushFront` allocates.  The Go map `cache` is an association list from
keys to element addresses.  `currentBytes` and `maxBytes` are `int64` in the
source: they are integers here, and every conversion to `int64` and every `int64`
addition or subtraction of the source goes through `int64`, which wraps modulo
`2^64`.  The side effect of the callback `OnEvicted` is recorded in the trace
`calls`.
-/

namespace lru

/-- A cached value: the interface `Value` asks for `Len() int` only.  A value is
modelled by its payload together with the length it reports, a natural number (the
specification asks for a non-negative size); `int64` is applied where the source
converts it. -/
structure Value where
  payload : String
  Len : Nat
deriving DecidableEq

/-- The test type `String` of `lru_test.go`: `Len` is the byte length. -/
def StringV (s : String) : Value := ⟨s, s.utf8ByteSize⟩

/-- The stored element: `type entry struct { key string; value Value }`. -/
structure entry where
  key : String
  value : Value
deriving DecidableEq

/-- One invocation of `OnEvicted(key, value)`, together with the store the
callback can observe at that moment. -/
structure Call where
  key : String
  value : Value
  seenBytes : Int
  seenList : List Nat
  seenCache : List (String × Nat)
deriving DecidableEq

/-- The `Cache` struct.  `OnEvicted` is `true` when a callback is registered
(non-nil); `heap`, `next` and `calls` are the memory and the callback trace. -/
structure Cache where
  maxBytes : Int
  currentBytes : Int
  entryList : List Nat
  cache : List (String × Nat)
  OnEvicted : Bool
  heap : Nat → entry
  next : Nat
  calls : List Call

/-- The conversion to `int64` and the result of an `int64` addition or subtraction:
the integer of the range from `-2^63` to `2^63 - 1` congruent to `x` modulo `2^64`. -/
def int64 (x : Int) : Int :=
  (x + 9223372036854775808) % 18446744073709551616 - 9223372036854775808

/-- Map lookup `m[key]`: the address bound to `key`, if any. -/
def mapGet : List (String × Nat) → String → Option Nat
  | [], _ => none
  | (k, a) :: m, key => if k = key then some a else mapGet m key

/-- Map deletion `delete(m, key)`. -/
def mapDelete : List (String × Nat) → String → List (String × Nat)
  | [], _ => []
  | (k, a) :: m, key => if k = key then mapDelete m key else (k, a) :: mapDelete m key

/-- Map assignment `m[key] = ele`. -/
def mapSet (m : List (String × Nat)) (key : String) (ele : Nat) : List (String × Nat) :=
  (key, ele) :: mapDelete m key

/-- The method `list.MoveToFront(e)`: nothing happens when `e` is not an element of
the list (or is already at the front, where moving changes nothing). -/
def MoveToFront (l : List Nat) (e : Nat) : List Nat :=
  if e ∈ l then e :: l.erase e else l

/-- The accounted size of an entry, `len(key) + value.Len()`, as an exact integer. -/
def entry.size (e : entry) : Int := (e.key.utf8ByteSize : Int) + (e.value.Len : Int)

/-- The constructor `New(maxBytes, onEvicted)`.  The argument `maxBytes` is an `int64`
in the source; the theorems below hold for every integer. -/
def New (maxBytes : Int) (onEvicted : Bool) : Cache :=
  { maxBytes := maxBytes
    currentBytes := 0
    entryList := []
    cache := []
    OnEvicted := onEvicted
    heap := fun _ => ⟨"", ⟨"", 0⟩⟩
    next := 0
    calls := [] }

/-- The method `RemoveOldest`: unlink the back element, delete its key from the map,
subtract its size, then call `OnEvicted` when one is registered. -/
def RemoveOldest (c : Cache) : Cache :=
  match c.entryList.getLast? with
  | none => c
  | some ele =>
    let e := c.heap ele
    let entryList := c.entryList.erase ele
    let cache := mapDelete c.cache e.key
    let currentBytes := int64 (c.currentBytes
      - int64 (int64 (e.key.utf8ByteSize : Int) + int64 (e.value.Len : Int)))
    { c with
      entryList := entryList
      cache := cache
      currentBytes := currentBytes
      calls := if c.OnEvicted then
          c.calls ++ [⟨e.key, e.value, currentBytes, entryList, cache⟩]
        else c.calls }

/-- The two branches of `Add` before its eviction loop (lines 44 to 53). -/
def addEntry (c : Cache) (key : String) (value : Value) : Cache :=
  match mapGet c.cache key with
  | some ele =>
    let e := c.heap ele
    { c with
      entryList := MoveToFront c.entryList ele
      currentBytes := int64 (c.currentBytes
        + int64 (int64 (e.value.Len : Int) - int64 (value.Len : Int)))
      heap := Function.update c.heap ele { e with value := value } }
  | none =>
    let ele := c.next
    { c with
      entryList := ele :: c.entryList
      heap := Function.update c.heap ele ⟨key, value⟩
      next := c.next + 1
      cache := mapSet c.cache key ele
      currentBytes := int64 (c.currentBytes
        + int64 (int64 (key.utf8ByteSize : Int) + int64 (value.Len : Int))) }

/-- The eviction loop of `Add` (lines 55 to 57), run for at most `fuel` iterations:
`none` when the loop has not stopped by then. -/
def evictLoop (fuel : Nat) (c : Cache) : Option Cache :=
  if 0 < c.maxBytes ∧ c.maxBytes < c.currentBytes then
    match fuel with
    | 0 => none
    | fuel + 1 => evictLoop fuel (RemoveOldest c)
  else some c

/-- The method `Add`, its loop bounded by `fuel` iterations. -/
def Add (fuel : Nat) (c : Cache) (key : String) (value : Value) : Option Cache :=
  evictLoop fuel (addEntry c key value)

/-- The method `Get`: the new store, the returned value (`none` is the nil
interface value) and the flag `ok`. -/
def Get (c : Cache) (key : String) : Cache × Option Value × Bool :=
  match mapGet c.cache key with
  | some ele =>
    ({ c with entryList := MoveToFront c.entryList ele }, some (c.heap ele).value, true)
  | none => (c, none, false)

/-- The entries held by the list, front first. -/
def Cache.entries (c : Cache) : List entry := c.entryList.map c.heap

/-- The sum over the stored entries of `len(key) + value.Len()`. -/
def Cache.storedBytes (c : Cache) : Int := (c.entries.map entry.size).sum

/-- The counter `currentBytes` holds an `int64`. -/
def Ranged (c : Cache) : Prop :=
  -9223372036854775808 ≤ c.currentBytes ∧ c.currentBytes < 9223372036854775808

/-- The structural invariant of a store: list elements are distinct allocated
addresses, map keys are distinct, every map binding points to a list element that
holds an entry with that key, and every list element is bound in the map under
the key of its entry. -/
structure Inv (c : Cache) : Prop where
  nodup : c.entryList.Nodup
  fresh : ∀ a ∈ c.entryList, a < c.next
  keys : (c.cache.map Prod.fst).Nodup
  index : ∀ k a, mapGet c.cache k = some a → a ∈ c.entryList ∧ (c.heap a).key = k
  listed : ∀ a ∈ c.entryList, mapGet c.cache (c.heap a).key = some a

/-- The store states reachable from `New` by calls of `Add` (that return), `Get`
and `RemoveOldest`. -/
inductive Reachable : Cache → Prop
  | new (maxBytes : Int) (onEvicted : Bool) : Reachable (New maxBytes onEvicted)
  | add {c c' : Cache} (fuel : Nat) (key : String) (value : Value) :
      Reachable c → Add fuel c key value = some c' → Reachable c'
  | get {c : Cache} (key : String) : Reachable c → Reachable (Get c key).1
  | removeOldest {c : Cache} : Reachable c → Reachable (RemoveOldest c)

/-- The store states reached from `New maxBytes onEvicted` by calls of `Add` only,
each of which returns. -/
inductive AddReachable (maxBytes : Int) (onEvicted : Bool) : Cache → Prop
  | new : AddReachable maxBytes onEvicted (New maxBytes onEvicted)
  | add {c c' : Cache} (fuel : Nat) (key : String) (value : Value) :
      AddReachable maxBytes onEvicted c → Add fuel c key value = some c' →
      AddReachable maxBytes onEvicted c'

/-- A run of `Add` calls, each with the same loop bound `fuel`. -/
def adds (fuel : Nat) : Cache → List (String × Value) → Option Cache
  | c, [] => some c
  | c, (k, v) :: r => (Add fuel c k v).bind (fun c1 => adds fuel c1 r)

/-- The key and value an invocation of `OnEvicted` received. -/
def Call.entry (x : Call) : entry := ⟨x.key, x.value⟩

/-- The entries evicted between `before` and `after`, oldest first: the entries at
the back of the ordering of `before` that the ordering of `after` no longer has. -/
def evictedBy (before after : Cache) : List entry :=
  (before.entries.drop after.entries.length).reverse

/-- A run of `Add` calls that also collects, call after call, the entries each call
evicted: those present right after the insertion or update (`addEntry`) and gone
when the call returns. -/
def addsEvicted (fuel : Nat) : Cache → List (String × Value) → Option (Cache × List entry)
  | c, [] => some (c, [])
  | c, (k, v) :: r =>
    match Add fuel c k v with
    | none => none
    | some c1 =>
      match addsEvicted fuel c1 r with
      | none => none
      | some (c2, ev) => some (c2, evictedBy (addEntry c k v) c1 ++ ev)

/-- The store of `TestRemoveOldest` before the removal: `New(20, nil)`,
`Add("key1", "value1")`, `Add("key2", "value2")`; neither call evicts. -/
def twoKeys : Cache :=
  addEntry (addEntry (New 20 false) "key1" (StringV "value1")) "key2" (StringV "value2")

/-- The value the store holds for `key`, read through the lookup index: the value
of the entry of the element the index binds to `key`. -/
def Cache.lookup (c : Cache) (key : String) : Option Value :=
  (mapGet c.cache key).map (fun ele => (c.heap ele).value)

/-- A call of `Add` or of `Get` in a run of the store. -/
inductive Op where
  | add (key : String) (value : Value)
  | get (key : String)

/-- One call of a run; `Get` always returns. -/
def step (fuel : Nat) (c : Cache) : Op → Option Cache
  | Op.add key value => Add fuel c key value
  | Op.get key => some (Get c key).1

/-- A run of `Add` and `Get` calls, each `Add` with the loop bound `fuel`. -/
def run (fuel : Nat) : Cache → List Op → Option Cache
  | c, [] => some c
  | c, op :: r => (step fuel c op).bind (fun c1 => run fuel c1 r)

/-- The plain map of the specification, one call further: `Add` binds the key to the
value, `Get` changes nothing. -/
def plainStep (m : String → Option Value) : Op → String → Option Value
  | Op.add key value => fun k => if k = key then some value else m k
  | Op.get _ => m

/-- The plain map of the specification after a run started from `m`: each key is
bound to the value of the most recent `Add` on it, and a key never added is not
bound. -/
def plainMap (m : String → Option Value) : List Op → String → Option Value
  | [] => m
  | op :: r => plainMap (plainStep m op) r

/-- The store states reached from `New` by calls of `Add` (that return), `Get` and
`RemoveOldest` in which every `Add` is applied to a key that is not stored at the
time of the call. -/
inductive FreshReachable : Cache → Prop
  | new (maxBytes : Int) (onEvicted : Bool) : FreshReachable (New maxBytes onEvicted)
  | add {c c' : Cache} (fuel : Nat) (key : String) (value : Value) :
      FreshReachable c → (∀ e ∈ c.entries, e.key ≠ key) →
      Add fuel c key value = some c' → FreshReachable c'
  | get {c : Cache} (key : String) : FreshReachable c → FreshReachable (Get c key).1
  | removeOldest {c : Cache} : FreshReachable c → FreshReachable (RemoveOldest c)

/-! ## Arithmetic of `int64` -/

theorem int64_range (x : Int) :
    -9223372036854775808 ≤ int64 x ∧ int64 x < 9223372036854775808 := by
  unfold int64; omega

theorem int64_of_range {x : Int} (h1 : -9223372036854775808 ≤ x)
    (h2 : x < 9223372036854775808) : int64 x = x := by
  unfold int64; omega

theorem int64_add_sum (a b d : Int) :
    int64 (a + int64 (int64 b + int64 d)) = int64 (a + (b + d)) := by
  unfold int64; omega

theorem int64_sub_sum (a b d : Int) :
    int64 (a - int64 (int64 b + int64 d)) = int64 (a - (b + d)) := by
  unfold int64; omega

theorem int64_add_diff (a b d : Int) :
    int64 (a + int64 (int64 b - int64 d)) = int64 (a + (b - d)) := by
  unfold int64; omega

theorem int64_add_sub_cancel (a b : Int) : int64 (int64 (a + b) - b) = int64 a := by
  unfold int64; omega

theorem int64_sub_add_cancel (a b : Int) : int64 (int64 (a - b) + b) = int64 a := by
  unfold int64; omega

/-- The histories of `FreshReachable` in which, at every `Add`, the sizes of the
stored entries and of the added entry sum to at most `2^63 - 1`, so that the `int64`
addition of `Add` does not overflow. -/
inductive BoundedFreshReachable : Cache → Prop
  | new (maxBytes : Int) (onEvicted : Bool) :
      BoundedFreshReachable (New maxBytes onEvicted)
  | add {c c' : Cache} (fuel : Nat) (key : String) (value : Value) :
      BoundedFreshReachable c → (∀ e ∈ c.entries, e.key ≠ key) →
      c.storedBytes + ((key.utf8ByteSize : Int) + (value.Len : Int)) < 9223372036854775808 →
      Add fuel c key value = some c' → BoundedFreshReachable c'
  | get {c : Cache} (key : String) :
      BoundedFreshReachable c → BoundedFreshReachable (Get c key).1
  | removeOldest {c : Cache} :
      BoundedFreshReachable c → BoundedFreshReachable (RemoveOldest c)

/-! ## The map operations -/

theorem mapGet_mapDelete_self (m : List (String × Nat)) (k : String) :
    mapGet (mapDelete m k) k = none := by
  induction m with
  | nil => rfl
  | cons p m ih =>
    obtain ⟨k', a⟩ := p
    by_cases h : k' = k
    · simp [mapDelete, h, ih]
    · simp [mapDelete, mapGet, h, ih]

theorem mapGet_mapDelete_ne (m : List (String × Nat)) {k k' : String} (h : k' ≠ k) :
    mapGet (mapDelete m k) k' = mapGet m k' := by
  induction m with
  | nil => rfl
  | cons p m ih =>
    obtain ⟨k1, a⟩ := p
    by_cases h1 : k1 = k
    · have h2 : ¬ k1 = k' := fun e => h (e ▸ h1)
      rw [mapDelete, if_pos h1, mapGet, if_neg h2, ih]
    · by_cases h2 : k1 = k'
      · rw [mapDelete, if_neg h1, mapGet, if_pos h2, mapGet, if_pos h2]
      · rw [mapDelete, if_neg h1, mapGet, if_neg h2, mapGet, if_neg h2, ih]

theorem mapDelete_keys_sublist (m : List (String × Nat)) (k : String) :
    ((mapDelete m k).map Prod.fst).Sublist (m.map Prod.fst) := by
  induction m with
  | nil => simp [mapDelete]
  | cons p m ih =>
    obtain ⟨k1, a⟩ := p
    by_cases h1 : k1 = k
    · simpa [mapDelete, h1] using ih.cons k
    · simpa [mapDelete, h1] using ih

theorem mapGet_eq_none_iff (m : List (String × Nat)) (k : String) :
    mapGet m k = none ↔ k ∉ m.map Prod.fst := by
  induction m with
  | nil => simp [mapGet]
  | cons p m ih =>
    obtain ⟨k1, a⟩ := p
    by_cases h1 : k1 = k
    · simp [mapGet, h1]
    · have h2 : ¬ k = k1 := fun e => h1 e.symm
      simp [mapGet, h1, h2, ih]

theorem not_mem_keys_mapDelete (m : List (String × Nat)) (k : String) :
    k ∉ (mapDelete m k).map Prod.fst :=
  (mapGet_eq_none_iff _ _).1 (mapGet_mapDelete_self m k)

theorem mapGet_mapSet_self (m : List (String × Nat)) (k : String) (a : Nat) :
    mapGet (mapSet m k a) k = some a := by
  simp [mapSet, mapGet]

theorem mapGet_mapSet_ne (m : List (String × Nat)) {k k' : String} (a : Nat) (h : k' ≠ k) :
    mapGet (mapSet m k a) k' = mapGet m k' := by
  have h2 : ¬ k = k' := fun e => h e.symm
  simp [mapSet, mapGet, h2, mapGet_mapDelete_ne m h]

theorem mapDelete_of_not_mem (m : List (String × Nat)) (k : String)
    (h : mapGet m k = none) : mapDelete m k = m := by
  induction m with
  | nil => rfl
  | cons p m ih =>
    obtain ⟨k1, a⟩ := p
    by_cases h1 : k1 = k
    · simp [mapGet, h1] at h
    · simp [mapGet, h1] at h
      simp [mapDelete, h1, ih h]

/-! ## The list operations -/

theorem MoveToFront_perm (l : List Nat) (e : Nat) : (MoveToFront l e).Perm l := by
  unfold MoveToFront
  split
  · next h => exact (List.perm_cons_erase h).symm
  · exact List.Perm.refl _

theorem MoveToFront_of_mem {l : List Nat} {e : Nat} (h : e ∈ l) :
    MoveToFront l e = e :: l.erase e := by
  simp [MoveToFront, h]

/-! ## The structural invariant is kept by every operation -/

theorem Inv_New (maxBytes : Int) (onEvicted : Bool) : Inv (New maxBytes onEvicted) where
  nodup := by simp [New]
  fresh := by simp [New]
  keys := by simp [New]
  index := by simp [New, mapGet]
  listed := by simp [New]

theorem Inv_Get {c : Cache} (h : Inv c) (key : String) : Inv (Get c key).1 := by
  unfold Get
  split
  · next ele he =>
    have hp := MoveToFront_perm c.entryList ele
    exact
      { nodup := hp.nodup_iff.2 h.nodup
        fresh := fun a ha => h.fresh a (hp.mem_iff.1 ha)
        keys := h.keys
        index := fun k a hk => ⟨hp.mem_iff.2 (h.index k a hk).1, (h.index k a hk).2⟩
        listed := fun a ha => h.listed a (hp.mem_iff.1 ha) }
  · exact h

theorem Inv_addEntry {c : Cache} (h : Inv c) (key : String) (value : Value) :
    Inv (addEntry c key value) := by
  unfold addEntry
  split
  · next ele he =>
    have hp := MoveToFront_perm c.entryList ele
    have hkey : ∀ a, (Function.update c.heap ele
        { c.heap ele with value := value } a).key = (c.heap a).key := by
      intro a
      by_cases ha : a = ele
      · subst ha; simp
      · simp [Function.update_noteq ha]
    exact
      { nodup := hp.nodup_iff.2 h.nodup
        fresh := fun a ha => h.fresh a (hp.mem_iff.1 ha)
        keys := h.keys
        index := fun k a hk =>
          ⟨hp.mem_iff.2 (h.index k a hk).1, (hkey a).trans (h.index k a hk).2⟩
        listed := fun a ha => by
          show mapGet c.cache (Function.update c.heap ele _ a).key = some a
          rw [hkey a]
          exact h.listed a (hp.mem_iff.1 ha) }
  · next hnone =>
    have hnot : c.next ∉ c.entryList := fun hm => lt_irrefl _ (h.fresh _ hm)
    refine
      { nodup := List.nodup_cons.2 ⟨hnot, h.nodup⟩
        fresh := ?_
        keys := ?_
        index := ?_
        listed := ?_ }
    · intro a ha
      rcases List.mem_cons.1 ha with rfl | ha
      · exact Nat.lt_succ_self _
      · exact Nat.lt_succ_of_lt (h.fresh a ha)
    · show ((mapSet c.cache key c.next).map Prod.fst).Nodup
      simp only [mapSet, List.map_cons, List.nodup_cons]
      exact ⟨not_mem_keys_mapDelete _ _, h.keys.sublist (mapDelete_keys_sublist _ _)⟩
    · intro k a hk
      show a ∈ c.next :: c.entryList ∧ (Function.update c.heap c.next ⟨key, value⟩ a).key = k
      by_cases hkk : k = key
      · subst hkk
        rw [show mapGet (mapSet c.cache k c.next) k = some c.next from
          mapGet_mapSet_self _ _ _] at hk
        cases hk
        simp
      · rw [show mapGet (mapSet c.cache key c.next) k = mapGet c.cache k from
          mapGet_mapSet_ne _ _ hkk] at hk
        have h1 := h.index k a hk
        have hne : a ≠ c.next := fun e => hnot (e ▸ h1.1)
        exact ⟨List.mem_cons_of_mem _ h1.1, by rw [Function.update_noteq hne]; exact h1.2⟩
    · intro a ha
      show mapGet (mapSet c.cache key c.next)
        (Function.update c.heap c.next ⟨key, value⟩ a).key = some a
      rcases List.mem_cons.1 ha with rfl | ha
      · simp [mapGet_mapSet_self]
      · have hne : a ≠ c.next := fun e => hnot (e ▸ ha)
        rw [Function.update_noteq hne]
        have h1 := h.listed a ha
        have hkk : (c.heap a).key ≠ key := by
          intro e
          rw [e, hnone] at h1
          cases h1
        rw [mapGet_mapSet_ne _ _ hkk]
        exact h1

theorem Inv_RemoveOldest {c : Cache} (h : Inv c) : Inv (RemoveOldest c) := by
  unfold RemoveOldest
  split
  · exact h
  · next ele hlast =>
    have hmem : ele ∈ c.entryList := List.mem_of_getLast?_eq_some hlast
    have hele := h.listed ele hmem
    refine
      { nodup := h.nodup.erase ele
        fresh := fun a ha => h.fresh a (List.mem_of_mem_erase ha)
        keys := h.keys.sublist (mapDelete_keys_sublist _ _)
        index := ?_
        listed := ?_ }
    · intro k a hk
      show a ∈ c.entryList.erase ele ∧ (c.heap a).key = k
      have hk1 : mapGet (mapDelete c.cache (c.heap ele).key) k = some a := hk
      have hkk : k ≠ (c.heap ele).key := by
        intro e
        rw [e, mapGet_mapDelete_self] at hk1
        cases hk1
      rw [mapGet_mapDelete_ne _ hkk] at hk1
      have h1 := h.index k a hk1
      have hne : a ≠ ele := by
        intro e
        rw [e] at h1
        exact hkk h1.2.symm
      exact ⟨(List.mem_erase_of_ne hne).2 h1.1, h1.2⟩
    · intro a ha
      show mapGet (mapDelete c.cache (c.heap ele).key) (c.heap a).key = some a
      have hne : a ≠ ele := fun e => (h.nodup.not_mem_erase) (e ▸ ha)
      have h1 := h.listed a (List.mem_of_mem_erase ha)
      have hkk : (c.heap a).key ≠ (c.heap ele).key := by
        intro e
        rw [e, hele] at h1
        exact hne (Option.some.inj h1).symm
      rw [mapGet_mapDelete_ne _ hkk]
      exact h1

theorem Inv_evictLoop (fuel : Nat) : ∀ {c c' : Cache}, Inv c → evictLoop fuel c = some c' →
    Inv c' := by
  induction fuel with
  | zero =>
    intro c c' h he
    unfold evictLoop at he
    split at he
    · cases he
    · cases he; exact h
  | succ n ih =>
    intro c c' h he
    unfold evictLoop at he
    split at he
    · exact ih (Inv_RemoveOldest h) he
    · cases he; exact h

theorem Inv_Add {c c' : Cache} (h : Inv c) {fuel : Nat} {key : String} {value : Value}
    (he : Add fuel c key value = some c') : Inv c' :=
  Inv_evictLoop fuel (Inv_addEntry h key value) he

theorem Reachable.inv {c : Cache} (h : Reachable c) : Inv c := by
  induction h with
  | new m o => exact Inv_New m o
  | add fuel key value _ he ih => exact Inv_Add ih he
  | get key _ ih => exact Inv_Get ih key
  | removeOldest _ ih => exact Inv_RemoveOldest ih

/-! ## The counter stays an `int64` -/

theorem Ranged_New (maxBytes : Int) (onEvicted : Bool) : Ranged (New maxBytes onEvicted) := by
  show -9223372036854775808 ≤ (0 : Int) ∧ (0 : Int) < 9223372036854775808
  exact ⟨by decide, by decide⟩

theorem Ranged_Get {c : Cache} (h : Ranged c) (key : String) : Ranged (Get c key).1 := by
  unfold Get
  split <;> exact h

theorem Ranged_addEntry (c : Cache) (key : String) (value : Value) :
    Ranged (addEntry c key value) := by
  unfold addEntry
  split <;> exact int64_range _

theorem Ranged_RemoveOldest {c : Cache} (h : Ranged c) : Ranged (RemoveOldest c) := by
  unfold RemoveOldest
  split
  · exact h
  · exact int64_range _

theorem Ranged_evictLoop (fuel : Nat) : ∀ {c c' : Cache}, Ranged c →
    evictLoop fuel c = some c' → Ranged c' := by
  induction fuel with
  | zero =>
    intro c c' h he
    unfold evictLoop at he
    split at he
    · cases he
    · cases he; exact h
  | succ n ih =>
    intro c c' h he
    unfold evictLoop at he
    split at he
    · exact ih (Ranged_RemoveOldest h) he
    · cases he; exact h

theorem Reachable.ranged {c : Cache} (h : Reachable c) : Ranged c := by
  induction h with
  | new m o => exact Ranged_New m o
  | add fuel key value _ he _ => exact Ranged_evictLoop fuel (Ranged_addEntry _ key value) he
  | get key _ ih => exact Ranged_Get ih key
  | removeOldest _ ih => exact Ranged_RemoveOldest ih

/-! ## The eviction loop -/

theorem evictLoop_stuck {c : Cache} (hl : c.entryList = []) (h0 : 0 < c.maxBytes)
    (h1 : c.maxBytes < c.currentBytes) : ∀ fuel, evictLoop fuel c = none := by
  intro fuel
  induction fuel with
  | zero => unfold evictLoop; simp [h0, h1]
  | succ n ih =>
    have hr : RemoveOldest c = c := by simp [RemoveOldest, hl]
    unfold evictLoop
    simp [h0, h1, hr, ih]

theorem evictLoop_maxBytes (fuel : Nat) : ∀ {c c' : Cache}, evictLoop fuel c = some c' →
    c'.maxBytes = c.maxBytes ∧ (0 < c'.maxBytes → c'.currentBytes ≤ c'.maxBytes) := by
  induction fuel with
  | zero =>
    intro c c' he
    unfold evictLoop at he
    split at he
    · cases he
    · next hc =>
      cases he
      refine ⟨rfl, fun h0 => ?_⟩
      by_contra hlt
      exact hc ⟨h0, not_le.1 hlt⟩
  | succ n ih =>
    intro c c' he
    unfold evictLoop at he
    split at he
    · have h1 := ih he
      have h2 : (RemoveOldest c).maxBytes = c.maxBytes := by
        unfold RemoveOldest; split <;> rfl
      exact ⟨h1.1.trans h2, h1.2⟩
    · next hc =>
      cases he
      refine ⟨rfl, fun h0 => ?_⟩
      by_contra hlt
      exact hc ⟨h0, not_le.1 hlt⟩

theorem addEntry_maxBytes (c : Cache) (key : String) (value : Value) :
    (addEntry c key value).maxBytes = c.maxBytes := by
  unfold addEntry; split <;> rfl

theorem AddReachable.maxBytes_eq {m : Int} {o : Bool} {c : Cache} (h : AddReachable m o c) :
    c.maxBytes = m := by
  induction h with
  | new => rfl
  | add fuel key value _ he ih =>
    exact ((evictLoop_maxBytes fuel he).1.trans (addEntry_maxBytes _ _ _)).trans ih

theorem erase_concat_of_nodup {rest : List Nat} {ele : Nat} (h : (rest ++ [ele]).Nodup) :
    (rest ++ [ele]).erase ele = rest := by
  have hn : ele ∉ rest := by
    intro hm
    have := List.nodup_append.1 h
    exact this.2.2 hm (List.mem_singleton_self ele)
  rw [List.erase_append_right _ hn]
  simp

theorem RemoveOldest_eq {c : Cache} (h : Inv c) {rest : List Nat} {ele : Nat}
    (hl : c.entryList = rest ++ [ele]) :
    RemoveOldest c =
      { c with
        entryList := rest
        cache := mapDelete c.cache (c.heap ele).key
        currentBytes := int64 (c.currentBytes - (c.heap ele).size)
        calls := if c.OnEvicted then
            c.calls ++ [⟨(c.heap ele).key, (c.heap ele).value,
              int64 (c.currentBytes - (c.heap ele).size), rest,
              mapDelete c.cache (c.heap ele).key⟩]
          else c.calls } := by
  have hnd : (rest ++ [ele]).Nodup := hl ▸ h.nodup
  unfold RemoveOldest
  rw [hl, List.getLast?_concat]
  simp only [erase_concat_of_nodup hnd, entry.size, int64_sub_sum]

theorem key_injective {c : Cache} (h : Inv c) {a b : Nat} (ha : a ∈ c.entryList)
    (hb : b ∈ c.entryList) (hk : (c.heap a).key = (c.heap b).key) : a = b := by
  have h1 := h.listed a ha
  have h2 := h.listed b hb
  rw [hk, h2] at h1
  exact (Option.some.inj h1).symm

theorem entry.size_nonneg (e : entry) : 0 ≤ e.size := by
  unfold entry.size; positivity

theorem sum_sizes_nonneg (l : List entry) : 0 ≤ (l.map entry.size).sum :=
  List.sum_nonneg (by
    intro x hx
    obtain ⟨e, _, rfl⟩ := List.mem_map.1 hx
    exact e.size_nonneg)

theorem exists_concat_of_ne_nil {l : List Nat} (h : l ≠ []) : ∃ rest ele, l = rest ++ [ele] :=
  ⟨l.dropLast, l.getLast h, (List.dropLast_append_getLast h).symm⟩

theorem Inv.cache_nil {c : Cache} (h : Inv c) (hl : c.entryList = []) : c.cache = [] := by
  cases hc : c.cache with
  | nil => rfl
  | cons p m =>
    obtain ⟨k, a⟩ := p
    have h1 : mapGet c.cache k = some a := by rw [hc]; simp [mapGet]
    have h2 := (h.index k a h1).1
    rw [hl] at h2
    cases h2

theorem evictLoop_of_cond {c : Cache} (h0 : 0 < c.maxBytes) (h1 : c.maxBytes < c.currentBytes)
    (n : Nat) : evictLoop (n + 1) c = evictLoop n (RemoveOldest c) := by
  rw [evictLoop.eq_def, if_pos ⟨h0, h1⟩]

theorem evictLoop_of_not_cond {c : Cache} (h : ¬ (0 < c.maxBytes ∧ c.maxBytes < c.currentBytes))
    (n : Nat) : evictLoop n c = some c := by
  rw [evictLoop.eq_def, if_neg h]

theorem evictLoop_det (n : Nat) : ∀ (m : Nat) {c a b : Cache}, evictLoop n c = some a →
    evictLoop m c = some b → a = b := by
  induction n with
  | zero =>
    intro m c a b ha hb
    by_cases hc : 0 < c.maxBytes ∧ c.maxBytes < c.currentBytes
    · rw [evictLoop.eq_def, if_pos hc] at ha
      cases ha
    · rw [evictLoop_of_not_cond hc] at ha hb
      exact (Option.some.inj ha).symm.trans (Option.some.inj hb)
  | succ n ih =>
    intro m c a b ha hb
    by_cases hc : 0 < c.maxBytes ∧ c.maxBytes < c.currentBytes
    · rw [evictLoop_of_cond hc.1 hc.2] at ha
      cases m with
      | zero =>
        rw [evictLoop.eq_def, if_pos hc] at hb
        cases hb
      | succ m =>
        rw [evictLoop_of_cond hc.1 hc.2] at hb
        exact ih m ha hb
    · rw [evictLoop_of_not_cond hc] at ha hb
      exact (Option.some.inj ha).symm.trans (Option.some.inj hb)

theorem exact_RemoveOldest {c : Cache} (hi : Inv c) (hacc : c.currentBytes = c.storedBytes)
    (hlt : c.currentBytes < 9223372036854775808) :
    (RemoveOldest c).currentBytes = (RemoveOldest c).storedBytes ∧
    (RemoveOldest c).currentBytes < 9223372036854775808 := by
  by_cases hne : c.entryList = []
  · have hr : RemoveOldest c = c := by simp [RemoveOldest, hne]
    rw [hr]; exact ⟨hacc, hlt⟩
  · obtain ⟨rest, ele, hrl⟩ := exists_concat_of_ne_nil hne
    rw [RemoveOldest_eq hi hrl]
    show int64 (c.currentBytes - (c.heap ele).size) = ((rest.map c.heap).map entry.size).sum ∧
      int64 (c.currentBytes - (c.heap ele).size) < 9223372036854775808
    have hs : c.storedBytes = ((rest.map c.heap).map entry.size).sum + (c.heap ele).size := by
      simp [Cache.storedBytes, Cache.entries, hrl]
    have h0 := sum_sizes_nonneg (rest.map c.heap)
    have h1 := (c.heap ele).size_nonneg
    have h2 : int64 (c.currentBytes - (c.heap ele).size) = c.currentBytes - (c.heap ele).size :=
      int64_of_range (by omega) (by omega)
    rw [h2]
    constructor <;> omega

theorem evictLoop_drain : ∀ (n : Nat) (c : Cache), c.entryList.length = n → Inv c →
    c.currentBytes = c.storedBytes → c.currentBytes < 9223372036854775808 → 0 < c.maxBytes →
    (∀ a ∈ c.entryList.head?, c.maxBytes < (c.heap a).size) →
    ∃ c', evictLoop n c = some c' ∧ c'.entryList = [] ∧ c'.cache = [] ∧ c'.currentBytes = 0 := by
  intro n
  induction n with
  | zero =>
    intro c hn hi hacc _ h0 _
    have hl : c.entryList = [] := List.length_eq_zero.1 hn
    have hcb : c.currentBytes = 0 := by rw [hacc]; simp [Cache.storedBytes, Cache.entries, hl]
    refine ⟨c, evictLoop_of_not_cond ?_ 0, hl, hi.cache_nil hl, hcb⟩
    rw [hcb]
    exact fun h => lt_asymm h.1 h.2
  | succ n ih =>
    intro c hn hi hacc hlt h0 hhd
    have hne : c.entryList ≠ [] := by
      intro h; rw [h] at hn; cases hn
    obtain ⟨rest, ele, hrl⟩ := exists_concat_of_ne_nil hne
    have hbig : c.maxBytes < c.currentBytes := by
      rw [hacc]
      cases hl : c.entryList with
      | nil => exact absurd hl hne
      | cons hd tl =>
        have h1 := hhd hd (by rw [hl]; rfl)
        have h2 : c.storedBytes = (c.heap hd).size + ((tl.map c.heap).map entry.size).sum := by
          simp [Cache.storedBytes, Cache.entries, hl]
        have h3 := sum_sizes_nonneg (tl.map c.heap)
        omega
    have hE := RemoveOldest_eq hi hrl
    have hex := exact_RemoveOldest hi hacc hlt
    rw [evictLoop_of_cond h0 hbig]
    apply ih _ (by rw [hE]; show rest.length = n; rw [hrl] at hn; simpa using hn)
      (Inv_RemoveOldest hi) hex.1 hex.2
    · rw [hE]; exact h0
    · rw [hE]
      intro a ha
      show c.maxBytes < (c.heap a).size
      apply hhd
      rw [hrl]
      cases rest with
      | nil => cases ha
      | cons x xs => exact ha

theorem addEntry_of_absent {c : Cache} {key : String} (h : mapGet c.cache key = none)
    (value : Value) :
    addEntry c key value =
      { c with
        entryList := c.next :: c.entryList
        heap := Function.update c.heap c.next ⟨key, value⟩
        next := c.next + 1
        cache := mapSet c.cache key c.next
        currentBytes :=
          int64 (c.currentBytes + ((key.utf8ByteSize : Int) + (value.Len : Int))) } := by
  unfold addEntry
  rw [h]
  simp only [int64_add_sum]

theorem absent_of_no_entry {c : Cache} (hi : Inv c) {key : String}
    (hk : ∀ e ∈ c.entries, e.key ≠ key) : mapGet c.cache key = none := by
  cases hg : mapGet c.cache key with
  | none => rfl
  | some a =>
    have h1 := hi.index key a hg
    exact absurd h1.2 (hk _ (List.mem_map_of_mem _ h1.1))

theorem map_update_of_not_mem {l : List Nat} {a : Nat} (h : a ∉ l) (f : Nat → entry) (e : entry) :
    l.map (Function.update f a e) = l.map f := by
  apply List.map_congr_left
  intro b hb
  exact Function.update_noteq (fun hba => h (by rw [← hba]; exact hb)) _ _

theorem evictLoop_trace (fuel : Nat) : ∀ {c c' : Cache}, Inv c → evictLoop fuel c = some c' →
    ∃ gone : List Nat, c.entryList = c'.entryList ++ gone ∧ c'.heap = c.heap ∧
      c'.OnEvicted = c.OnEvicted ∧
      c'.calls.map Call.entry =
        c.calls.map Call.entry ++ (if c.OnEvicted then (gone.map c.heap).reverse else []) := by
  induction fuel with
  | zero =>
    intro c c' _ he
    by_cases hc : 0 < c.maxBytes ∧ c.maxBytes < c.currentBytes
    · rw [evictLoop, if_pos hc] at he
      cases he
    · rw [evictLoop_of_not_cond hc] at he
      cases he
      exact ⟨[], by simp, rfl, rfl, by simp⟩
  | succ n ih =>
    intro c c' hi he
    by_cases hc : 0 < c.maxBytes ∧ c.maxBytes < c.currentBytes
    · rw [evictLoop_of_cond hc.1 hc.2] at he
      by_cases hne : c.entryList = []
      · have hr : RemoveOldest c = c := by simp [RemoveOldest, hne]
        rw [hr] at he
        exact ih hi he
      · obtain ⟨rest, ele, hrl⟩ := exists_concat_of_ne_nil hne
        have hi2 := Inv_RemoveOldest hi
        rw [RemoveOldest_eq hi hrl] at he hi2
        obtain ⟨gone, h1, h2, h3, h4⟩ := ih hi2 he
        refine ⟨gone ++ [ele], ?_, h2, h3, ?_⟩
        · rw [hrl, ← List.append_assoc]
          exact congrArg (· ++ [ele]) h1
        · rw [h4]
          cases hcb : c.OnEvicted <;> simp [hcb, Call.entry]
    · rw [evictLoop_of_not_cond hc] at he
      cases he
      exact ⟨[], by simp, rfl, rfl, by simp⟩

theorem addEntry_calls (c : Cache) (key : String) (value : Value) :
    (addEntry c key value).calls = c.calls ∧ (addEntry c key value).OnEvicted = c.OnEvicted := by
  unfold addEntry; split <;> exact ⟨rfl, rfl⟩

theorem Add_evicts_back {c c' : Cache} (hi : Inv c) {fuel : Nat} {key : String} {value : Value}
    (hadd : Add fuel c key value = some c') :
    (addEntry c key value).entries = c'.entries ++ (evictedBy (addEntry c key value) c').reverse ∧
    c'.calls.map Call.entry = c.calls.map Call.entry ++
      (if c.OnEvicted then evictedBy (addEntry c key value) c' else []) := by
  obtain ⟨gone, h1, h2, _, h4⟩ := evictLoop_trace fuel (Inv_addEntry hi key value) hadd
  have hev : evictedBy (addEntry c key value) c' = (gone.map (addEntry c key value).heap).reverse := by
    simp [evictedBy, Cache.entries, h1, h2]
  rw [hev, (addEntry_calls c key value).1, (addEntry_calls c key value).2] at *
  refine ⟨?_, h4⟩
  simp [Cache.entries, h1, h2]

theorem twoKeys_reachable : Reachable twoKeys :=
  Reachable.add 0 "key2" (StringV "value2")
    (Reachable.add 0 "key1" (StringV "value1") (Reachable.new 20 false) rfl) rfl

theorem adds_calls (fuel : Nat) (ops : List (String × Value)) :
    ∀ (c c' : Cache) (ev : List entry), Reachable c → c.OnEvicted = true →
      addsEvicted fuel c ops = some (c', ev) →
      c'.calls.map Call.entry = c.calls.map Call.entry ++ ev := by
  induction ops with
  | nil =>
    intro c c' ev _ _ hrun
    simp [addsEvicted] at hrun
    obtain ⟨rfl, rfl⟩ := hrun
    simp
  | cons p r ih =>
    obtain ⟨k, v⟩ := p
    intro c c' ev h hcb hrun
    unfold addsEvicted at hrun
    split at hrun
    · cases hrun
    · next c1 hadd =>
      split at hrun
      · cases hrun
      · next c2 ev2 hrest =>
        cases hrun
        have h1 := (Add_evicts_back h.inv hadd).2
        have hcb1 : c1.OnEvicted = true := by
          obtain ⟨_, _, _, h3, _⟩ := evictLoop_trace fuel (Inv_addEntry h.inv k v) hadd
          rw [h3, (addEntry_calls c k v).2, hcb]
        rw [ih c1 c' ev2 (Reachable.add fuel k v h hadd) hcb1 hrest, h1, hcb]
        simp

/-! ## Exact accounting -/

theorem storedBytes_Get (c : Cache) (key : String) :
    (Get c key).1.storedBytes = c.storedBytes := by
  unfold Get
  split
  · next ele _ =>
    show (((MoveToFront c.entryList ele).map c.heap).map entry.size).sum = _
    exact (((MoveToFront_perm c.entryList ele).map c.heap).map entry.size).sum_eq
  · rfl

theorem currentBytes_Get (c : Cache) (key : String) :
    (Get c key).1.currentBytes = c.currentBytes := by
  unfold Get
  split <;> rfl

theorem exact_addEntry_of_absent {c : Cache} (hi : Inv c) (hacc : c.currentBytes = c.storedBytes)
    {key : String} (habs : mapGet c.cache key = none) (value : Value)
    (hfit : c.storedBytes + ((key.utf8ByteSize : Int) + (value.Len : Int))
      < 9223372036854775808) :
    (addEntry c key value).currentBytes = (addEntry c key value).storedBytes ∧
    (addEntry c key value).currentBytes < 9223372036854775808 := by
  have hnot : c.next ∉ c.entryList := fun hm => lt_irrefl _ (hi.fresh _ hm)
  have h0 : 0 ≤ c.storedBytes := sum_sizes_nonneg c.entries
  have hs : (addEntry c key value).storedBytes
      = c.storedBytes + ((key.utf8ByteSize : Int) + (value.Len : Int)) := by
    rw [addEntry_of_absent habs]
    simp only [Cache.storedBytes, Cache.entries, List.map_cons, List.sum_cons,
      Function.update_same, map_update_of_not_mem hnot, entry.size]
    ring
  have hc : (addEntry c key value).currentBytes
      = int64 (c.currentBytes + ((key.utf8ByteSize : Int) + (value.Len : Int))) := by
    rw [addEntry_of_absent habs]
  rw [hc, hs, hacc, int64_of_range (by omega) hfit]
  exact ⟨rfl, hfit⟩

theorem exact_evictLoop (fuel : Nat) : ∀ {c c' : Cache}, Inv c →
    c.currentBytes = c.storedBytes → c.currentBytes < 9223372036854775808 →
    evictLoop fuel c = some c' → c'.currentBytes = c'.storedBytes := by
  induction fuel with
  | zero =>
    intro c c' _ hacc _ he
    by_cases hc : 0 < c.maxBytes ∧ c.maxBytes < c.currentBytes
    · rw [evictLoop, if_pos hc] at he
      cases he
    · rw [evictLoop_of_not_cond hc] at he
      cases he; exact hacc
  | succ n ih =>
    intro c c' hi hacc hlt he
    by_cases hc : 0 < c.maxBytes ∧ c.maxBytes < c.currentBytes
    · rw [evictLoop_of_cond hc.1 hc.2] at he
      have hex := exact_RemoveOldest hi hacc hlt
      exact ih (Inv_RemoveOldest hi) hex.1 hex.2 he
    · rw [evictLoop_of_not_cond hc] at he
      cases he; exact hacc

theorem storedBytes_nonneg (c : Cache) : 0 ≤ c.storedBytes :=
  sum_sizes_nonneg c.entries

theorem evictLoop_returns_of_exact : ∀ (n : Nat) (c : Cache), c.entryList.length = n → Inv c →
    c.currentBytes = c.storedBytes → c.currentBytes < 9223372036854775808 →
    ∃ c', evictLoop n c = some c' := by
  intro n
  induction n with
  | zero =>
    intro c hn _ hacc _
    have hl : c.entryList = [] := List.length_eq_zero.1 hn
    have hcb : c.currentBytes = 0 := by rw [hacc]; simp [Cache.storedBytes, Cache.entries, hl]
    refine ⟨c, evictLoop_of_not_cond ?_ 0⟩
    rw [hcb]
    exact fun h => lt_asymm h.1 h.2
  | succ n ih =>
    intro c hn hi hacc hlt
    by_cases hc : 0 < c.maxBytes ∧ c.maxBytes < c.currentBytes
    · have hne : c.entryList ≠ [] := by
        intro h; rw [h] at hn; cases hn
      obtain ⟨rest, ele, hrl⟩ := exists_concat_of_ne_nil hne
      have hex := exact_RemoveOldest hi hacc hlt
      rw [evictLoop_of_cond hc.1 hc.2]
      apply ih _ _ (Inv_RemoveOldest hi) hex.1 hex.2
      rw [RemoveOldest_eq hi hrl]
      show rest.length = n
      rw [hrl] at hn
      simpa using hn
    · exact ⟨c, evictLoop_of_not_cond hc _⟩

theorem evictLoop_keeps_head (fuel : Nat) : ∀ {c c' : Cache} {hd : Nat} {tl : List Nat},
    Inv c → c.currentBytes = c.storedBytes → c.currentBytes < 9223372036854775808 →
    c.entryList = hd :: tl →
    (c.heap hd).size ≤ c.maxBytes → evictLoop fuel c = some c' →
    ∃ tl', c'.entryList = hd :: tl' ∧ c'.heap = c.heap := by
  induction fuel with
  | zero =>
    intro c c' hd tl _ _ _ hl _ he
    by_cases hc : 0 < c.maxBytes ∧ c.maxBytes < c.currentBytes
    · rw [evictLoop, if_pos hc] at he
      cases he
    · rw [evictLoop_of_not_cond hc] at he
      cases he; exact ⟨tl, hl, rfl⟩
  | succ n ih =>
    intro c c' hd tl hi hacc hlt hl hfit he
    by_cases hc : 0 < c.maxBytes ∧ c.maxBytes < c.currentBytes
    · rw [evictLoop_of_cond hc.1 hc.2] at he
      have htl : tl ≠ [] := by
        intro h0
        have : c.currentBytes = (c.heap hd).size := by
          rw [hacc]; simp [Cache.storedBytes, Cache.entries, hl, h0]
        omega
      obtain ⟨rest, ele, hrl⟩ := exists_concat_of_ne_nil htl
      have hrl2 : c.entryList = (hd :: rest) ++ [ele] := by rw [hl, hrl]; rfl
      have hE := RemoveOldest_eq hi hrl2
      have hex := exact_RemoveOldest hi hacc hlt
      have hlist : (RemoveOldest c).entryList = hd :: rest := by rw [hE]
      have hheap : (RemoveOldest c).heap = c.heap := by rw [hE]
      have hmax : (RemoveOldest c).maxBytes = c.maxBytes := by rw [hE]
      have h9 := ih (Inv_RemoveOldest hi) hex.1 hex.2 hlist
        (by rw [hheap, hmax]; exact hfit) he
      rw [hheap] at h9
      exact h9
    · rw [evictLoop_of_not_cond hc] at he
      cases he; exact ⟨tl, hl, rfl⟩

theorem addEntry_head {c : Cache} (hi : Inv c) (key : String) (value : Value) :
    ∃ hd tl, (addEntry c key value).entryList = hd :: tl ∧
      (addEntry c key value).heap hd = ⟨key, value⟩ := by
  unfold addEntry
  split
  · next ele he =>
    have h1 := hi.index key ele he
    refine ⟨ele, c.entryList.erase ele, MoveToFront_of_mem h1.1, ?_⟩
    show Function.update c.heap ele _ ele = _
    rw [Function.update_same, ← h1.2]
  · exact ⟨c.next, c.entryList, rfl, by simp⟩

/-! ## Index and ordering -/

theorem Inv.mem_keys_iff {c : Cache} (h : Inv c) (k : String) :
    k ∈ c.cache.map Prod.fst ↔ k ∈ c.entries.map entry.key := by
  constructor
  · intro hk
    cases hg : mapGet c.cache k with
    | none => exact absurd hk ((mapGet_eq_none_iff _ _).1 hg)
    | some a =>
      have h1 := h.index k a hg
      exact List.mem_map.2 ⟨c.heap a, List.mem_map_of_mem _ h1.1, h1.2⟩
  · intro hk
    obtain ⟨e, he, hek⟩ := List.mem_map.1 hk
    obtain ⟨a, ha, hae⟩ := List.mem_map.1 he
    have h1 := h.listed a ha
    rw [hae, hek] at h1
    by_contra hn
    rw [(mapGet_eq_none_iff _ _).2 hn] at h1
    cases h1

theorem Inv.keys_nodup {c : Cache} (h : Inv c) : (c.entries.map entry.key).Nodup := by
  unfold Cache.entries
  rw [List.map_map]
  exact h.nodup.map_on (fun a ha b hb hab => key_injective h ha hb hab)

theorem FreshReachable.reachable {c : Cache} (h : FreshReachable c) : Reachable c := by
  induction h with
  | new m o => exact Reachable.new m o
  | add fuel key value _ _ he ih => exact Reachable.add fuel key value ih he
  | get key _ ih => exact Reachable.get key ih
  | removeOldest _ ih => exact Reachable.removeOldest ih

/-! ## The store read as a map -/

theorem Get_result (c : Cache) (key : String) :
    (Get c key).2 = (c.lookup key, (c.lookup key).isSome) := by
  unfold Get Cache.lookup
  cases mapGet c.cache key <;> rfl

theorem lookup_Get (c : Cache) (key k : String) : (Get c key).1.lookup k = c.lookup k := by
  unfold Get
  split <;> rfl

theorem lookup_addEntry {c : Cache} (hi : Inv c) (key : String) (value : Value) (k : String) :
    (addEntry c key value).lookup k = if k = key then some value else c.lookup k := by
  unfold addEntry
  split
  · next ele he =>
    show (mapGet c.cache k).map (fun a => (Function.update c.heap ele _ a).value) = _
    by_cases hk : k = key
    · subst hk
      rw [he, if_pos rfl]
      simp
    · rw [if_neg hk]
      unfold Cache.lookup
      cases hg : mapGet c.cache k with
      | none => rfl
      | some a =>
        have hne : a ≠ ele := by
          intro hae
          rw [hae] at hg
          exact hk ((hi.index k ele hg).2.symm.trans (hi.index key ele he).2)
        simp [Function.update_noteq hne]
  · next hnone =>
    show (mapGet (mapSet c.cache key c.next) k).map
      (fun a => (Function.update c.heap c.next ⟨key, value⟩ a).value) = _
    by_cases hk : k = key
    · subst hk
      rw [mapGet_mapSet_self, if_pos rfl]
      simp
    · rw [if_neg hk, mapGet_mapSet_ne _ _ hk]
      unfold Cache.lookup
      cases hg : mapGet c.cache k with
      | none => rfl
      | some a =>
        have hne : a ≠ c.next := by
          intro hae
          exact lt_irrefl _ (hae ▸ hi.fresh a (hi.index k a hg).1)
        simp [Function.update_noteq hne]

theorem evictLoop_unbounded {c : Cache} (h : c.maxBytes ≤ 0) (fuel : Nat) :
    evictLoop fuel c = some c :=
  evictLoop_of_not_cond (fun hc => absurd hc.1 (not_lt.2 h)) fuel

theorem run_unbounded (ops : List Op) : ∀ (c : Cache) (m : String → Option Value), Inv c →
    c.maxBytes ≤ 0 → (∀ k, c.lookup k = m k) →
    ∃ c', run 0 c ops = some c' ∧ c'.calls = c.calls ∧ ∀ k, c'.lookup k = plainMap m ops k := by
  induction ops with
  | nil =>
    intro c m _ _ hm
    exact ⟨c, rfl, rfl, hm⟩
  | cons op r ih =>
    intro c m hi hmax hm
    cases op with
    | add key value =>
      have hmax1 : (addEntry c key value).maxBytes ≤ 0 := by rw [addEntry_maxBytes]; exact hmax
      obtain ⟨c', h1, h2, h3⟩ := ih (addEntry c key value) (plainStep m (Op.add key value))
        (Inv_addEntry hi key value) hmax1
        (by
          intro k
          rw [lookup_addEntry hi]
          show _ = if k = key then some value else m k
          rw [hm k])
      refine ⟨c', ?_, h2.trans (addEntry_calls c key value).1, h3⟩
      show (Add 0 c key value).bind _ = _
      rw [Add, evictLoop_unbounded hmax1]
      exact h1
    | get key =>
      have hmax1 : (Get c key).1.maxBytes ≤ 0 := by
        unfold Get; split <;> exact hmax
      have hcalls : (Get c key).1.calls = c.calls := by
        unfold Get; split <;> rfl
      obtain ⟨c', h1, h2, h3⟩ := ih (Get c key).1 (plainStep m (Op.get key))
        (Inv_Get hi key) hmax1
        (by
          intro k
          rw [lookup_Get]
          exact hm k)
      exact ⟨c', h1, h2.trans hcalls, h3⟩

/-! ## What the eviction loop leaves -/

theorem evictLoop_exit {fuel : Nat} {c c' : Cache} (he : evictLoop fuel c = some c') :
    ¬ (0 < c'.maxBytes ∧ c'.maxBytes < c'.currentBytes) :=
  fun hc => absurd hc.2 (not_lt.2 ((evictLoop_maxBytes fuel he).2 hc.1))

theorem evictLoop_eq_of_length (fuel : Nat) : ∀ {c c' : Cache}, Inv c →
    evictLoop fuel c = some c' → c'.entryList.length = c.entryList.length → c' = c := by
  induction fuel with
  | zero =>
    intro c c' _ he _
    by_cases hc : 0 < c.maxBytes ∧ c.maxBytes < c.currentBytes
    · rw [evictLoop, if_pos hc] at he
      cases he
    · rw [evictLoop_of_not_cond hc] at he
      cases he; rfl
  | succ n ih =>
    intro c c' hi he hlen
    by_cases hc : 0 < c.maxBytes ∧ c.maxBytes < c.currentBytes
    · rw [evictLoop_of_cond hc.1 hc.2] at he
      by_cases hne : c.entryList = []
      · have hr : RemoveOldest c = c := by simp [RemoveOldest, hne]
        rw [hr] at he
        exact ih hi he hlen
      · obtain ⟨rest, ele, hrl⟩ := exists_concat_of_ne_nil hne
        obtain ⟨gone, h1, _⟩ := evictLoop_trace n (Inv_RemoveOldest hi) he
        have h2 : rest = c'.entryList ++ gone := by
          rw [← h1, RemoveOldest_eq hi hrl]
        have h3 : c.entryList.length = c'.entryList.length + gone.length + 1 := by
          rw [hrl, h2]
          simp only [List.length_append, List.length_singleton]
        omega
    · rw [evictLoop_of_not_cond hc] at he
      cases he; rfl

theorem evictLoop_emptied (fuel : Nat) : ∀ {c c' : Cache} {hd : Nat} {tl : List Nat}, Inv c →
    Ranged c → c.entryList = hd :: tl → evictLoop fuel c = some c' → c'.entryList = [] →
    0 < c'.maxBytes ∧ c'.maxBytes < int64 (c'.currentBytes + (c.heap hd).size) := by
  induction fuel with
  | zero =>
    intro c c' hd tl _ _ hl he hem
    by_cases hc : 0 < c.maxBytes ∧ c.maxBytes < c.currentBytes
    · rw [evictLoop, if_pos hc] at he
      cases he
    · rw [evictLoop_of_not_cond hc] at he
      cases he
      rw [hl] at hem
      cases hem
  | succ n ih =>
    intro c c' hd tl hi hr hl he hem
    by_cases hc : 0 < c.maxBytes ∧ c.maxBytes < c.currentBytes
    · rw [evictLoop_of_cond hc.1 hc.2] at he
      by_cases htl : tl = []
      · have hrl : c.entryList = [] ++ [hd] := by rw [hl, htl]; rfl
        have hE := RemoveOldest_eq hi hrl
        have hlist : (RemoveOldest c).entryList = [] := by rw [hE]
        have hcb : (RemoveOldest c).currentBytes
            = int64 (c.currentBytes - (c.heap hd).size) := by
          rw [hE]
        have hmax : (RemoveOldest c).maxBytes = c.maxBytes := by rw [hE]
        by_cases hc2 : (RemoveOldest c).maxBytes < (RemoveOldest c).currentBytes
        · rw [evictLoop_stuck hlist (by rw [hmax]; exact hc.1) hc2 n] at he
          cases he
        · rw [evictLoop_of_not_cond (fun hh => hc2 hh.2)] at he
          cases he
          rw [hmax, hcb, int64_sub_add_cancel, int64_of_range hr.1 hr.2]
          exact hc
      · obtain ⟨rest, ele, hrl⟩ := exists_concat_of_ne_nil htl
        have hrl2 : c.entryList = (hd :: rest) ++ [ele] := by rw [hl, hrl]; rfl
        have hE := RemoveOldest_eq hi hrl2
        have hlist : (RemoveOldest c).entryList = hd :: rest := by rw [hE]
        have hheap : (RemoveOldest c).heap = c.heap := by rw [hE]
        have h9 := ih (Inv_RemoveOldest hi) (Ranged_RemoveOldest hr) hlist he hem
        rw [hheap] at h9
        exact h9
    · rw [evictLoop_of_not_cond hc] at he
      cases he
      rw [hl] at hem
      cases hem

theorem lookup_of_mem {c : Cache} (hi : Inv c) {a : Nat} (ha : a ∈ c.entryList) :
    c.lookup (c.heap a).key = some (c.heap a).value := by
  unfold Cache.lookup
  rw [hi.listed a ha]
  rfl

theorem erase_entries_eq_filter {c : Cache} (hi : Inv c) {a : Nat} (ha : a ∈ c.entryList) :
    (c.entryList.erase a).map c.heap
      = c.entries.filter (fun e => e.key ≠ (c.heap a).key) := by
  rw [hi.nodup.erase_eq_filter]
  show _ = List.filter _ (c.entryList.map c.heap)
  rw [List.filter_map]
  congr 1
  apply List.filter_congr
  intro b hb
  by_cases hba : b = a
  · subst hba; simp
  · have : (c.heap b).key ≠ (c.heap a).key := fun e => hba (key_injective hi hb ha e)
    simp [hba, this]

theorem Add_head {c c' : Cache} (hi : Inv c) {fuel : Nat} {key : String} {value : Value}
    (hadd : Add fuel c key value = some c') :
    c'.entryList = [] ∨ ∃ hd tl, c'.entryList = hd :: tl ∧ c'.heap hd = ⟨key, value⟩ := by
  obtain ⟨hd, tl, h1, h2⟩ := addEntry_head hi key value
  obtain ⟨gone, h3, h4, _⟩ := evictLoop_trace fuel (Inv_addEntry hi key value) hadd
  cases hl : c'.entryList with
  | nil => exact Or.inl rfl
  | cons x xs =>
    refine Or.inr ⟨x, xs, rfl, ?_⟩
    rw [hl, h1] at h3
    have hx : hd = x := by
      have := congrArg List.head? h3
      simpa using this
    rw [h4, ← hx, h2]

theorem addEntry_of_present {c : Cache} {key : String} {ele : Nat}
    (h : mapGet c.cache key = some ele) (value : Value) :
    addEntry c key value =
      { c with
        entryList := MoveToFront c.entryList ele
        currentBytes :=
          int64 (c.currentBytes + (((c.heap ele).value.Len : Int) - (value.Len : Int)))
        heap := Function.update c.heap ele { c.heap ele with value := value } } := by
  unfold addEntry
  rw [h]
  simp only [int64_add_diff]

theorem Add_eq_addEntry_of_nothing_evicted {c c' : Cache} (hi : Inv c) {fuel : Nat}
    {key : String} {value : Value} (hadd : Add fuel c key value = some c')
    (hnone : evictedBy (addEntry c key value) c' = []) : c' = addEntry c key value := by
  have h1 := (Add_evicts_back hi hadd).1
  rw [hnone] at h1
  have h2 : c'.entryList.length = (addEntry c key value).entryList.length := by
    have := congrArg List.length h1
    simpa [Cache.entries] using this.symm
  exact evictLoop_eq_of_length fuel (Inv_addEntry hi key value) hadd h2

theorem addEntry_self_of_head {c : Cache} (hi : Inv c) (hr : Ranged c) {hd : Nat}
    {tl : List Nat} {key : String} {value : Value} (hl : c.entryList = hd :: tl)
    (hhd : c.heap hd = ⟨key, value⟩) : addEntry c key value = c := by
  have hmem : hd ∈ c.entryList := by rw [hl]; exact List.mem_cons_self _ _
  have hg : mapGet c.cache key = some hd := by
    have := hi.listed hd hmem
    rwa [hhd] at this
  rw [addEntry_of_present hg]
  have h1 : MoveToFront c.entryList hd = c.entryList := by
    rw [MoveToFront_of_mem hmem, hl, List.erase_cons_head]
  have h2 : Function.update c.heap hd { c.heap hd with value := value } = c.heap := by
    have : ({ c.heap hd with value := value } : entry) = c.heap hd := by rw [hhd]
    rw [this, Function.update_eq_self]
  have h3 : int64 (c.currentBytes + (((c.heap hd).value.Len : Int) - (value.Len : Int)))
      = c.currentBytes := by
    rw [hhd, sub_self, add_zero, int64_of_range hr.1 hr.2]
  rw [h1, h2, h3]

/-- In a reachable store that holds the key `K`, an `Add(K, v)` that returns without
evicting an entry leaves every other stored key stored with the same value: the
entries are `(K, v)` at the front and behind it the former entries other than `K`
in their order, and the lookup index is unchanged. -/
theorem update_without_eviction_keeps_others (c : Cache) (h : Reachable c) (key : String)
    (old value : Value) (hk : (⟨key, old⟩ : entry) ∈ c.entries) (fuel : Nat) (c' : Cache)
    (hadd : Add fuel c key value = some c')
    (hnone : evictedBy (addEntry c key value) c' = []) :
    c'.entries = ⟨key, value⟩ :: c.entries.filter (fun e => e.key ≠ key) ∧
    c'.cache = c.cache ∧ ∀ k, k ≠ key → c'.lookup k = c.lookup k := by
  have hi := h.inv
  obtain ⟨a, ha, hea⟩ := List.mem_map.1 hk
  have hka : (c.heap a).key = key := by rw [hea]
  have hg : mapGet c.cache key = some a := hka ▸ hi.listed a ha
  have hc' := Add_eq_addEntry_of_nothing_evicted hi hadd hnone
  refine ⟨?_, ?_, ?_⟩
  · rw [hc', addEntry_of_present hg, ← hka, ← erase_entries_eq_filter hi ha]
    show (MoveToFront c.entryList a).map (Function.update c.heap a _) = _
    rw [MoveToFront_of_mem ha, List.map_cons, Function.update_same,
      map_update_of_not_mem hi.nodup.not_mem_erase]
  · rw [hc', addEntry_of_present hg]
  · intro k hkk
    rw [hc', lookup_addEntry hi, if_neg hkk]

theorem BoundedFreshReachable.toReachable {c : Cache} (h : BoundedFreshReachable c) :
    Reachable c := by
  induction h with
  | new m o => exact Reachable.new m o
  | add fuel key value _ _ _ he ih => exact Reachable.add fuel key value ih he
  | get key _ ih => exact Reachable.get key ih
  | removeOldest _ ih => exact Reachable.removeOldest ih

/-! ## The claims -/

/-- C1 (accounting invariant), evaluated on the update of `TestAdd`: after
`New(20, nil)`, `Add("key1", "value1k1")` and `Add("key1", "value1")` the store is
reachable and holds the single entry `("key1", "value1")` of size 10, while
`currentBytes` is 14: the update branch adds the old length minus the new one. -/
theorem C1_currentBytes_differs_from_stored_sum :
    ∃ c, adds 0 (New 20 false) [("key1", StringV "value1k1"), ("key1", StringV "value1")] = some c
      ∧ Reachable c ∧ c.currentBytes = 14 ∧ c.storedBytes = 10 := by
  refine ⟨_, rfl, ?_, by decide, by decide⟩
  exact Reachable.add 0 "key1" (StringV "value1")
    (Reachable.add 0 "key1" (StringV "value1k1") (Reachable.new 20 false) rfl) rfl

/-- C2 (byte delta of an update), evaluated on the update of `TestAdd`: in the
store holding `"key1"` with the value `"value1k1"` (length 8), the call
`Add("key1", "value1")` (length 6) returns without any eviction and raises
`currentBytes` by 2, where new size minus old size is -2. -/
theorem C2_update_delta_has_the_opposite_sign :
    ∃ c c', Add 0 (New 20 false) "key1" (StringV "value1k1") = some c ∧
      c.entries = [⟨"key1", StringV "value1k1"⟩] ∧
      Add 0 c "key1" (StringV "value1") = some c' ∧
      c'.entries = [⟨"key1", StringV "value1"⟩] ∧
      c'.currentBytes - c.currentBytes = 2 ∧
      ((StringV "value1").Len : Int) - ((StringV "value1k1").Len : Int) = -2 :=
  ⟨_, _, rfl, by decide, rfl, by decide, by decide, by decide⟩

/-- C3 (termination of `Add`), evaluated on a reachable store: after `New(10, nil)`
and `Add("k", "12345678")`, the call `Add("k", "")` does not return for any bound on
the number of loop iterations.  The update raises `currentBytes` from 9 to 17, the
loop evicts the only entry (16 left), and from then on `RemoveOldest` does nothing
on the empty list while `maxBytes < currentBytes` stays true. -/
theorem C3_Add_loops_forever :
    ∃ c, Add 0 (New 10 false) "k" (StringV "12345678") = some c ∧ Reachable c ∧
      ∀ fuel, Add fuel c "k" (StringV "") = none := by
  refine ⟨_, rfl, Reachable.add 0 "k" (StringV "12345678") (Reachable.new 10 false) rfl, ?_⟩
  intro fuel
  cases fuel with
  | zero => rfl
  | succ n =>
    show evictLoop (n + 1) _ = none
    unfold evictLoop
    rw [if_pos (by decide)]
    exact evictLoop_stuck (by decide) (by decide) (by decide) n

/-- C4 as stated fails: after `New(10, nil)`, the call `Add("key1", "1234567")` of
an entry of size 11 returns a store with no entry at all, and `Get("key1")` then
misses: the loop evicts the oversized entry itself. -/
theorem C4_oversized_insert_not_kept :
    ∃ c, Add 1 (New 10 false) "key1" (StringV "1234567") = some c ∧
      c.entries = [] ∧ c.cache = [] ∧ c.currentBytes = 0 ∧
      (Get c "key1").2 = (none, false) :=
  ⟨_, rfl, by decide, by decide, by decide, by decide⟩

/-- C4, amended: in a reachable store with `maxBytes > 0` whose `currentBytes` is the
sum of the stored sizes, `Add(K, v)` of a key `K` that is not stored, with
`len(K) + v.Len() > maxBytes` and with the stored sizes and `len(K) + v.Len()`
summing to at most `2^63 - 1` (no `int64` overflow), returns, and it has evicted
every entry, the new one included: the store is empty, `currentBytes` is 0 and
`Get(K)` returns `(nil, false)`. -/
theorem C4_oversized_insert_is_evicted (c : Cache) (h : Reachable c) (hmax : 0 < c.maxBytes)
    (hacc : c.currentBytes = c.storedBytes) (key : String) (value : Value)
    (hfresh : ∀ e ∈ c.entries, e.key ≠ key)
    (hbig : c.maxBytes < (key.utf8ByteSize : Int) + (value.Len : Int))
    (hfit : c.storedBytes + ((key.utf8ByteSize : Int) + (value.Len : Int))
      < 9223372036854775808) :
    (∃ fuel c', Add fuel c key value = some c') ∧
    ∀ fuel c', Add fuel c key value = some c' →
      c'.entries = [] ∧ c'.cache = [] ∧ c'.currentBytes = 0 ∧ (Get c' key).2 = (none, false) := by
  have hi := h.inv
  have habs := absent_of_no_entry hi hfresh
  have hi1 := Inv_addEntry hi key value
  have hex := exact_addEntry_of_absent hi hacc habs value hfit
  have hdrain := evictLoop_drain (c.entryList.length + 1) (addEntry c key value)
    (by rw [addEntry_of_absent habs]; rfl) hi1 hex.1 hex.2
    (by rw [addEntry_maxBytes]; exact hmax)
    (by
      rw [addEntry_of_absent habs]
      intro a ha
      have : a = c.next := by simpa using ha.symm
      subst this
      show c.maxBytes < (Function.update c.heap c.next ⟨key, value⟩ c.next).size
      rw [Function.update_same]
      exact hbig)
  obtain ⟨d, hd, hd1, hd2, hd3⟩ := hdrain
  refine ⟨⟨_, d, hd⟩, ?_⟩
  intro fuel c' hc'
  have : c' = d := evictLoop_det _ _ hc' hd
  subst this
  refine ⟨by simp [Cache.entries, hd1], hd2, hd3, ?_⟩
  simp [Get, hd2, mapGet]

/-- Witness of C4 (amended): the two-entry store of `TestRemoveOldest` (20 bytes of
20) and the insertion of `"k3"` with a value of 19 bytes. -/
theorem C4_oversized_insert_is_evicted_witness :
    0 < twoKeys.maxBytes ∧ twoKeys.currentBytes = twoKeys.storedBytes ∧
    (∀ e ∈ twoKeys.entries, e.key ≠ "k3") ∧
    twoKeys.maxBytes < (("k3".utf8ByteSize : Nat) : Int)
      + (((StringV "1234567890123456789").Len : Nat) : Int) ∧
    twoKeys.storedBytes + ((("k3".utf8ByteSize : Nat) : Int)
      + (((StringV "1234567890123456789").Len : Nat) : Int)) < 9223372036854775808 ∧
    ((∃ fuel c', Add fuel twoKeys "k3" (StringV "1234567890123456789") = some c') ∧
      ∀ fuel c', Add fuel twoKeys "k3" (StringV "1234567890123456789") = some c' →
        c'.entries = [] ∧ c'.cache = [] ∧ c'.currentBytes = 0 ∧
        (Get c' "k3").2 = (none, false)) :=
  ⟨by decide, by decide, by decide, by decide, by decide,
    C4_oversized_insert_is_evicted twoKeys twoKeys_reachable (by decide) (by decide) "k3"
      (StringV "1234567890123456789") (by decide) (by decide) (by decide)⟩

/-- C5 (capacity invariant on the counter): in a store created by `New` with
`maxBytes > 0` and brought to `c` by any sequence of `Add` calls, every further
`Add` call that returns leaves `currentBytes <= maxBytes`, or a store of exactly
one entry whose own size exceeds `maxBytes`. -/
theorem C5_capacity_counter (maxBytes : Int) (onEvicted : Bool) (hmax : 0 < maxBytes)
    (c c' : Cache) (hc : AddReachable maxBytes onEvicted c)
    (fuel : Nat) (key : String) (value : Value) (hadd : Add fuel c key value = some c') :
    c'.currentBytes ≤ maxBytes ∨ ∃ e, c'.entries = [e] ∧ maxBytes < e.size := by
  have h1 := (AddReachable.add fuel key value hc hadd).maxBytes_eq
  have h2 := (evictLoop_maxBytes fuel hadd).2
  rw [h1] at h2
  exact Or.inl (h2 hmax)

/-- Witness of C5: `New(10, nil)` then `Add("key1", "1234567")`, an entry of size 11. -/
theorem C5_capacity_counter_witness :
    (0 : Int) < 10 ∧ AddReachable 10 false (New 10 false) ∧
    ∃ c', Add 1 (New 10 false) "key1" (StringV "1234567") = some c' ∧
      (c'.currentBytes ≤ 10 ∨ ∃ e, c'.entries = [e] ∧ 10 < e.size) :=
  ⟨by decide, AddReachable.new, _, rfl,
    C5_capacity_counter 10 false (by decide) (New 10 false) _ AddReachable.new 1 "key1"
      (StringV "1234567") rfl⟩

/-- C6 (capacity bound on the stored data), evaluated: after `New(10, nil)`,
`Add("a", "1234")`, `Add("b", "1")` and the update `Add("a", "123456789")`, every call
has returned and the store holds two entries of sizes 10 and 2, 12 bytes in all,
above `maxBytes = 10`; `currentBytes` is 2. -/
theorem C6_stored_bytes_exceed_maxBytes :
    ∃ c, adds 0 (New 10 false)
        [("a", StringV "1234"), ("b", StringV "1"), ("a", StringV "123456789")] = some c ∧
      AddReachable 10 false c ∧
      c.entries = [⟨"a", StringV "123456789"⟩, ⟨"b", StringV "1"⟩] ∧
      c.storedBytes = 12 ∧ c.currentBytes = 2 := by
  refine ⟨_, rfl, ?_, by decide, by decide, by decide⟩
  exact AddReachable.add 0 "a" (StringV "123456789")
    (AddReachable.add 0 "b" (StringV "1")
      (AddReachable.add 0 "a" (StringV "1234") AddReachable.new rfl) rfl) rfl

/-- C7 (`RemoveOldest` evicts exactly the least recently used entry): in a reachable
store whose ordering ends with the entry `e`, `RemoveOldest` leaves the entries
before `e` in their order, removes the key of `e` from the lookup index and leaves
every other binding alone, lowers `currentBytes` by the size of `e` (an `int64`
subtraction; the exact difference whenever that is not below `-2^63`), and changes
neither a stored value nor `maxBytes`; no condition on the capacity is needed. -/
theorem C7_RemoveOldest_evicts_back (c : Cache) (h : Reachable c) (es : List entry) (e : entry)
    (hl : c.entries = es ++ [e]) :
    (RemoveOldest c).entries = es ∧
    (RemoveOldest c).entryList = c.entryList.dropLast ∧
    mapGet (RemoveOldest c).cache e.key = none ∧
    (∀ k, k ≠ e.key → mapGet (RemoveOldest c).cache k = mapGet c.cache k) ∧
    (RemoveOldest c).currentBytes = int64 (c.currentBytes - e.size) ∧
    (-9223372036854775808 ≤ c.currentBytes - e.size →
      (RemoveOldest c).currentBytes = c.currentBytes - e.size) ∧
    (RemoveOldest c).heap = c.heap ∧
    (RemoveOldest c).maxBytes = c.maxBytes := by
  have hi := h.inv
  have hr := h.ranged
  have hne : c.entryList ≠ [] := by
    intro h0
    simp [Cache.entries, h0] at hl
  obtain ⟨rest, ele, hrl⟩ : ∃ rest ele, c.entryList = rest ++ [ele] :=
    ⟨c.entryList.dropLast, c.entryList.getLast hne, (List.dropLast_append_getLast hne).symm⟩
  have hmap : rest.map c.heap ++ [c.heap ele] = es ++ [e] := by
    simpa [Cache.entries, hrl] using hl
  obtain ⟨h1, h2⟩ := List.append_inj' hmap rfl
  have h3 : c.heap ele = e := by simpa using h2
  rw [RemoveOldest_eq hi hrl, h3]
  refine ⟨h1, ?_, mapGet_mapDelete_self _ _, fun k hk => mapGet_mapDelete_ne _ hk, rfl, ?_,
    rfl, rfl⟩
  · show rest = c.entryList.dropLast
    rw [hrl, List.dropLast_concat]
  · intro hlow
    have h0 := e.size_nonneg
    exact int64_of_range hlow (by have := hr.2; omega)

/-- Witness of C7: the store of `TestRemoveOldest`, whose oldest entry is `"key1"`. -/
theorem C7_RemoveOldest_evicts_back_witness :
    twoKeys.entries = [⟨"key2", StringV "value2"⟩] ++ [⟨"key1", StringV "value1"⟩] ∧
    (RemoveOldest twoKeys).entries = [⟨"key2", StringV "value2"⟩] ∧
    (RemoveOldest twoKeys).currentBytes = twoKeys.currentBytes - 10 :=
  have h := C7_RemoveOldest_evicts_back twoKeys twoKeys_reachable
    [⟨"key2", StringV "value2"⟩] ⟨"key1", StringV "value1"⟩ (by decide)
  ⟨by decide, h.1, h.2.2.2.2.2.1 (by decide)⟩

/-- C8 (eviction callback sequence): in a reachable store with a registered callback,
an `Add` call that returns has kept the front part of the ordering and evicted the
entries behind it, and the callback trace has grown by exactly those entries (key
and current value), oldest first; over a run of `Add` calls the trace grows by the
evicted entries of the calls, in order. -/
theorem C8_callback_sequence (c : Cache) (h : Reachable c) (hcb : c.OnEvicted = true)
    (fuel : Nat) :
    (∀ key value c', Add fuel c key value = some c' →
      (addEntry c key value).entries
        = c'.entries ++ (evictedBy (addEntry c key value) c').reverse ∧
      c'.calls.map Call.entry
        = c.calls.map Call.entry ++ evictedBy (addEntry c key value) c') ∧
    (∀ ops c' ev, addsEvicted fuel c ops = some (c', ev) →
      c'.calls.map Call.entry = c.calls.map Call.entry ++ ev) := by
  constructor
  · intro key value c' hadd
    have h1 := Add_evicts_back h.inv hadd
    rw [hcb] at h1
    exact ⟨h1.1, by simpa using h1.2⟩
  · intro ops c' ev hrun
    exact adds_calls fuel ops c c' ev h hcb hrun

/-- Witness of C8: the run of `TestOnEvicted`, whose callback records `"key1"` then
`"k2"`. -/
theorem C8_callback_sequence_witness :
    (New 10 true).OnEvicted = true ∧
    ∃ c', addsEvicted 1 (New 10 true)
        [("key1", StringV "123456"), ("k2", StringV "k2"), ("k3", StringV "k3"),
          ("k4", StringV "k4")]
        = some (c', [⟨"key1", StringV "123456"⟩, ⟨"k2", StringV "k2"⟩]) ∧
      c'.calls.map Call.entry
        = (New 10 true).calls.map Call.entry
          ++ [⟨"key1", StringV "123456"⟩, ⟨"k2", StringV "k2"⟩] :=
  ⟨rfl, _, rfl,
    (C8_callback_sequence (New 10 true) (Reachable.new 10 true) rfl 1).2
      [("key1", StringV "123456"), ("k2", StringV "k2"), ("k3", StringV "k3"),
        ("k4", StringV "k4")] _ _ rfl⟩

/-- C9 (`Get` hit): in a reachable store that holds the entry `(K, v)`, `Get(K)`
returns `(v, true)`, puts `(K, v)` at the front of the ordering with the other
entries behind it in their former order, and leaves `currentBytes`, the lookup
index, the stored values, `maxBytes` and the callback trace as they were. -/
theorem C9_Get_hit (c : Cache) (h : Reachable c) (key : String) (v : Value)
    (hk : (⟨key, v⟩ : entry) ∈ c.entries) :
    (Get c key).2 = (some v, true) ∧
    (Get c key).1.entries = ⟨key, v⟩ :: c.entries.filter (fun e => e.key ≠ key) ∧
    (Get c key).1.currentBytes = c.currentBytes ∧
    (Get c key).1.cache = c.cache ∧
    (Get c key).1.heap = c.heap ∧
    (Get c key).1.maxBytes = c.maxBytes ∧
    (Get c key).1.calls = c.calls := by
  obtain ⟨a, ha, hea⟩ := List.mem_map.1 hk
  have hi := h.inv
  have hka : (c.heap a).key = key := by rw [hea]
  have hg : mapGet c.cache key = some a := hka ▸ hi.listed a ha
  have hG : Get c key = ({ c with entryList := MoveToFront c.entryList a },
      some (c.heap a).value, true) := by
    unfold Get; rw [hg]
  rw [hG, hea]
  refine ⟨rfl, ?_, rfl, rfl, rfl, rfl, rfl⟩
  show (MoveToFront c.entryList a).map c.heap = _
  rw [MoveToFront_of_mem ha, List.map_cons, hea, hi.nodup.erase_eq_filter]
  show _ = _ :: List.filter _ (c.entryList.map c.heap)
  rw [List.filter_map]
  congr 2
  apply List.filter_congr
  intro b hb
  by_cases hba : b = a
  · subst hba; simp [hka]
  · have : (c.heap b).key ≠ key := fun e => hba (key_injective hi hb ha (e.trans hka.symm))
    simp [hba, this]

/-- Witness of C9: `Get("key1")` on the store of `TestRemoveOldest`. -/
theorem C9_Get_hit_witness :
    (⟨"key1", StringV "value1"⟩ : entry) ∈ twoKeys.entries ∧
    (Get twoKeys "key1").2 = (some (StringV "value1"), true) ∧
    (Get twoKeys "key1").1.entries
      = [⟨"key1", StringV "value1"⟩, ⟨"key2", StringV "value2"⟩] :=
  have h := C9_Get_hit twoKeys twoKeys_reachable "key1" (StringV "value1") (by decide)
  ⟨by decide, h.1, h.2.1.trans (by decide)⟩

/-- C10 (idempotent miss): in a reachable store that holds no entry with key `K`,
`Get(K)` returns the nil value with `found = false` and the store it leaves is the
store it was given: `currentBytes`, index, ordering, values and callback trace. -/
theorem C10_Get_miss (c : Cache) (h : Reachable c) (key : String)
    (hk : ∀ e ∈ c.entries, e.key ≠ key) : Get c key = (c, none, false) := by
  have hnone : mapGet c.cache key = none := by
    cases hg : mapGet c.cache key with
    | none => rfl
    | some a =>
      have h1 := h.inv.index key a hg
      exact absurd h1.2 (hk _ (List.mem_map_of_mem _ h1.1))
  unfold Get
  rw [hnone]

/-- Witness of C10: the miss `Get("key2")` of `TestGet`, on the store holding
`"key1"` only. -/
theorem C10_Get_miss_witness :
    (∀ e ∈ (addEntry (New 0 false) "key1" (StringV "1234")).entries, e.key ≠ "key2") ∧
    Get (addEntry (New 0 false) "key1" (StringV "1234")) "key2"
      = (addEntry (New 0 false) "key1" (StringV "1234"), none, false) :=
  ⟨by decide,
    C10_Get_miss (addEntry (New 0 false) "key1" (StringV "1234"))
      (Reachable.add 0 "key1" (StringV "1234") (Reachable.new 0 false) rfl) "key2"
      (by decide)⟩

/-- C11 (index and ordering agree): in every reachable store a key is bound in the
lookup index exactly when an entry of the recency ordering has that key. -/
theorem C11_index_and_ordering_agree (c : Cache) (h : Reachable c) (k : String) :
    k ∈ c.cache.map Prod.fst ↔ k ∈ c.entries.map entry.key :=
  h.inv.mem_keys_iff k

/-- Witness of C11: the store of `TestRemoveOldest` and the key `"key1"`, which is
in both. -/
theorem C11_index_and_ordering_agree_witness :
    "key1" ∈ twoKeys.cache.map Prod.fst ∧
    ("key1" ∈ twoKeys.cache.map Prod.fst ↔ "key1" ∈ twoKeys.entries.map entry.key) :=
  ⟨by decide, C11_index_and_ordering_agree twoKeys twoKeys_reachable "key1"⟩

/-- C12 (an unbounded store is a plain map): from `New` with `maxBytes <= 0`, every
run of `Add` and `Get` calls returns without a single iteration of an eviction loop
(bound 0), so nothing is evicted and the callback is never invoked, and then
`Get(K)` returns the value of the most recent `Add` on `K` with `found = true`, or
the nil value with `found = false` when `K` was never added. -/
theorem C12_unbounded_store_is_a_plain_map (maxBytes : Int) (onEvicted : Bool)
    (hmax : maxBytes ≤ 0) (ops : List Op) :
    ∃ c, run 0 (New maxBytes onEvicted) ops = some c ∧ c.calls = [] ∧
      ∀ K, (Get c K).2 = (plainMap (fun _ => none) ops K,
        (plainMap (fun _ => none) ops K).isSome) := by
  obtain ⟨c, h1, h2, h3⟩ := run_unbounded ops (New maxBytes onEvicted) (fun _ => none)
    (Inv_New maxBytes onEvicted) hmax (fun _ => rfl)
  refine ⟨c, h1, h2, fun K => ?_⟩
  rw [Get_result, h3 K]

/-- Witness of C12: the run of `TestGet` on `New(0, nil)`: after `Add("key1", "1234")`
and a `Get`, the plain map binds `"key1"` to `"1234"` and does not bind `"key2"`. -/
theorem C12_unbounded_store_is_a_plain_map_witness :
    (0 : Int) ≤ 0 ∧
    plainMap (fun _ => none) [Op.add "key1" (StringV "1234"), Op.get "key1"] "key1"
      = some (StringV "1234") ∧
    plainMap (fun _ => none) [Op.add "key1" (StringV "1234"), Op.get "key1"] "key2" = none ∧
    ∃ c, run 0 (New 0 false) [Op.add "key1" (StringV "1234"), Op.get "key1"] = some c ∧
      c.calls = [] ∧
      ∀ K, (Get c K).2
        = (plainMap (fun _ => none) [Op.add "key1" (StringV "1234"), Op.get "key1"] K,
          (plainMap (fun _ => none)
            [Op.add "key1" (StringV "1234"), Op.get "key1"] K).isSome) :=
  ⟨by decide, by decide, by decide,
    C12_unbounded_store_is_a_plain_map 0 false (by decide)
      [Op.add "key1" (StringV "1234"), Op.get "key1"]⟩

/-- C13 as stated fails: after `New(5, nil)`, the call `Add("k", "123456")` of an entry
of size 7 returns a store in which `"k"` is not stored, at the front or anywhere. -/
theorem C13_oversized_key_not_in_front :
    ∃ c, Add 1 (New 5 false) "k" (StringV "123456") = some c ∧
      c.entries = [] ∧ (Get c "k").2 = (none, false) :=
  ⟨_, rfl, by decide, by decide⟩

/-- C13, amended: in a reachable store, `Add(K, v)` returns and leaves `K` stored with
value `v` at the front of the recency ordering whenever `maxBytes <= 0`, or
`currentBytes` is the sum of the stored sizes, `K` is not stored and
`len(K) + v.Len() <= maxBytes`. -/
theorem C13_Add_puts_key_in_front (c : Cache) (h : Reachable c) (key : String) (value : Value)
    (hfit : c.maxBytes ≤ 0 ∨
      (c.currentBytes = c.storedBytes ∧ (∀ e ∈ c.entries, e.key ≠ key) ∧
        (key.utf8ByteSize : Int) + (value.Len : Int) ≤ c.maxBytes)) :
    (∃ fuel c', Add fuel c key value = some c') ∧
    ∀ fuel c', Add fuel c key value = some c' →
      c'.entries.head? = some ⟨key, value⟩ ∧ (Get c' key).2 = (some value, true) := by
  have hi := h.inv
  have hr := h.ranged
  have hi1 := Inv_addEntry hi key value
  obtain ⟨hd, tl, hl, hhd⟩ := addEntry_head hi key value
  -- either the loop does not run at all, or the byte count is exact and in range
  have hcases : ¬ (0 < (addEntry c key value).maxBytes ∧
        (addEntry c key value).maxBytes < (addEntry c key value).currentBytes) ∨
      ((addEntry c key value).currentBytes = (addEntry c key value).storedBytes ∧
        (addEntry c key value).currentBytes < 9223372036854775808 ∧
        ((addEntry c key value).heap hd).size ≤ (addEntry c key value).maxBytes) := by
    rcases hfit with hmax | ⟨hacc, hfresh, hsize⟩
    · left
      rw [addEntry_maxBytes]
      exact fun hc => absurd hc.1 (not_lt.2 hmax)
    · by_cases hc : 0 < (addEntry c key value).maxBytes ∧
          (addEntry c key value).maxBytes < (addEntry c key value).currentBytes
      · right
        have habs := absent_of_no_entry hi hfresh
        have hcb : (addEntry c key value).currentBytes
            = int64 (c.currentBytes + ((key.utf8ByteSize : Int) + (value.Len : Int))) := by
          rw [addEntry_of_absent habs]
        have h0 : 0 ≤ c.storedBytes := sum_sizes_nonneg c.entries
        have hlt : c.storedBytes + ((key.utf8ByteSize : Int) + (value.Len : Int))
            < 9223372036854775808 := by
          have h2 := hc.2
          rw [addEntry_maxBytes, hcb, hacc] at h2
          have h3 := hr.2
          rw [hacc] at h3
          unfold int64 at h2
          omega
        have hex := exact_addEntry_of_absent hi hacc habs value hlt
        exact ⟨hex.1, hex.2, by rw [hhd, addEntry_maxBytes]; exact hsize⟩
      · exact Or.inl hc
  have hex : ∃ fuel c', Add fuel c key value = some c' := by
    rcases hcases with hc | ⟨hacc1, hlt1, _⟩
    · exact ⟨0, _, evictLoop_of_not_cond hc 0⟩
    · obtain ⟨c', hc'⟩ := evictLoop_returns_of_exact _ (addEntry c key value) rfl hi1
        hacc1 hlt1
      exact ⟨_, c', hc'⟩
  refine ⟨hex, ?_⟩
  intro fuel c' hadd
  have hi' := Inv_Add hi hadd
  have hkeep : ∃ tl', c'.entryList = hd :: tl' ∧ c'.heap = (addEntry c key value).heap := by
    rcases hcases with hc | ⟨hacc1, hlt1, hsize1⟩
    · have he : evictLoop fuel (addEntry c key value) = some (addEntry c key value) :=
        evictLoop_of_not_cond hc fuel
      have hc' : c' = addEntry c key value := evictLoop_det _ _ hadd he
      exact ⟨tl, by rw [hc', hl], by rw [hc']⟩
    · exact evictLoop_keeps_head fuel hi1 hacc1 hlt1 hl hsize1 hadd
  obtain ⟨tl', hl', hheap⟩ := hkeep
  have hent : c'.heap hd = ⟨key, value⟩ := by rw [hheap, hhd]
  have hmem : hd ∈ c'.entryList := by rw [hl']; exact List.mem_cons_self _ _
  refine ⟨by simp [Cache.entries, hl', hent], ?_⟩
  have hlk := lookup_of_mem hi' hmem
  rw [hent] at hlk
  rw [Get_result, hlk]
  rfl

/-- Witness of C13 (amended): `Add("key2", "value2")` on the store holding
`("key1", "value1")`, 10 bytes of 20. -/
theorem C13_Add_puts_key_in_front_witness :
    ((addEntry (New 20 false) "key1" (StringV "value1")).currentBytes
        = (addEntry (New 20 false) "key1" (StringV "value1")).storedBytes ∧
      (∀ e ∈ (addEntry (New 20 false) "key1" (StringV "value1")).entries, e.key ≠ "key2") ∧
      (("key2".utf8ByteSize : Nat) : Int) + (((StringV "value2").Len : Nat) : Int)
        ≤ (addEntry (New 20 false) "key1" (StringV "value1")).maxBytes) ∧
    ∃ c', Add 0 (addEntry (New 20 false) "key1" (StringV "value1")) "key2" (StringV "value2")
        = some c' ∧
      c'.entries.head? = some ⟨"key2", StringV "value2"⟩ ∧
      (Get c' "key2").2 = (some (StringV "value2"), true) :=
  ⟨⟨by decide, by decide, by decide⟩, _, rfl,
    (C13_Add_puts_key_in_front (addEntry (New 20 false) "key1" (StringV "value1"))
      (Reachable.add 0 "key1" (StringV "value1") (Reachable.new 20 false) rfl)
      "key2" (StringV "value2") (Or.inr ⟨by decide, by decide, by decide⟩)).2 0 _ rfl⟩

/-- C14 (an update leaves the other keys alone), evaluated: in the reachable store
holding `("a", "1234")` and `("b", "12345678")` with `maxBytes = 20`, the update
`Add("b", "1")` returns a store that holds `"b"` only.  The update branch raises
`currentBytes` from 14 to 21 where the stored sizes drop to 7, and the loop evicts
`"a"`, stored before the call. -/
theorem C14_update_evicts_another_key :
    ∃ c c', adds 0 (New 20 false) [("a", StringV "1234"), ("b", StringV "12345678")] = some c ∧
      Reachable c ∧
      c.entries = [⟨"b", StringV "12345678"⟩, ⟨"a", StringV "1234"⟩] ∧
      Add 1 c "b" (StringV "1") = some c' ∧
      c'.entries = [⟨"b", StringV "1"⟩] ∧ (Get c' "a").2 = (none, false) := by
  refine ⟨_, _, rfl, ?_, by decide, rfl, by decide, by decide⟩
  exact Reachable.add 0 "b" (StringV "12345678")
    (Reachable.add 0 "a" (StringV "1234") (Reachable.new 20 false) rfl) rfl

/-- C15 (`RemoveOldest` on an empty store): a store without entries is returned as it
is, so `currentBytes`, the lookup index, the ordering and the callback trace are
unchanged. -/
theorem C15_RemoveOldest_on_empty (c : Cache) (h : c.entries = []) : RemoveOldest c = c := by
  have hl : c.entryList = [] := List.map_eq_nil_iff.1 h
  simp [RemoveOldest, hl]

/-- Witness of C15: the new store `New(10, callback)`. -/
theorem C15_RemoveOldest_on_empty_witness :
    (New 10 true).entries = [] ∧ RemoveOldest (New 10 true) = New 10 true :=
  ⟨rfl, C15_RemoveOldest_on_empty (New 10 true) rfl⟩

/-- C16 (no over-eviction), evaluated on `TestAdd`: after `New(20, nil)`,
`Add("key1", "value1k1")` and `Add("key1", "value1")`, the call `Add("key2", "value2")`
evicts `("key1", "value1")` although the entries stored at that moment, 10 + 10
bytes, fit in `maxBytes = 20`: `currentBytes` stood at 24. -/
theorem C16_TestAdd_evicts_although_entries_fit :
    ∃ c c', adds 0 (New 20 false) [("key1", StringV "value1k1"), ("key1", StringV "value1")]
        = some c ∧
      AddReachable 20 false c ∧
      (addEntry c "key2" (StringV "value2")).storedBytes = 20 ∧
      (addEntry c "key2" (StringV "value2")).currentBytes = 24 ∧
      Add 1 c "key2" (StringV "value2") = some c' ∧
      evictedBy (addEntry c "key2" (StringV "value2")) c' = [⟨"key1", StringV "value1"⟩] ∧
      c'.entries = [⟨"key2", StringV "value2"⟩] := by
  refine ⟨_, _, rfl, ?_, by decide, by decide, rfl, by decide, by decide⟩
  exact AddReachable.add 0 "key1" (StringV "value1")
    (AddReachable.add 0 "key1" (StringV "value1k1") AddReachable.new rfl) rfl

/-- C17 (the callback sees the removal applied): in every store that satisfies the
structural invariant (as the stores inside the eviction loop of `Add` do, whatever
their `currentBytes`), has a registered callback and an ordering that ends with the
entry `e`, `RemoveOldest` makes exactly one call of `OnEvicted`, with the key and
value of `e`, and the store that call observes is the store after the removal: the
key of `e` is bound neither in the lookup index nor to an element of the ordering,
and `currentBytes` is already lowered by the size of `e` (an `int64` subtraction,
the exact difference when that is an `int64`). -/
theorem C17_callback_sees_removal (c : Cache) (h : Inv c) (hcb : c.OnEvicted = true)
    (es : List entry) (e : entry) (hl : c.entries = es ++ [e]) :
    ∃ x, (RemoveOldest c).calls = c.calls ++ [x] ∧ x.key = e.key ∧ x.value = e.value ∧
      mapGet x.seenCache e.key = none ∧
      (∀ a ∈ x.seenList, (c.heap a).key ≠ e.key) ∧
      x.seenBytes = int64 (c.currentBytes - e.size) ∧
      (-9223372036854775808 ≤ c.currentBytes - e.size →
        c.currentBytes - e.size < 9223372036854775808 →
        x.seenBytes = c.currentBytes - e.size) ∧
      x.seenCache = (RemoveOldest c).cache ∧
      x.seenList = (RemoveOldest c).entryList ∧
      x.seenBytes = (RemoveOldest c).currentBytes := by
  have hne : c.entryList ≠ [] := by
    intro h0
    simp [Cache.entries, h0] at hl
  obtain ⟨rest, ele, hrl⟩ := exists_concat_of_ne_nil hne
  have hmap : rest.map c.heap ++ [c.heap ele] = es ++ [e] := by
    simpa [Cache.entries, hrl] using hl
  obtain ⟨_, h2⟩ := List.append_inj' hmap rfl
  have h3 : c.heap ele = e := by simpa using h2
  have hnd : (rest ++ [ele]).Nodup := hrl ▸ h.nodup
  rw [RemoveOldest_eq h hrl, h3, hcb]
  refine ⟨_, rfl, rfl, rfl, mapGet_mapDelete_self _ _, ?_, rfl,
    fun h1 h2 => int64_of_range h1 h2, rfl, rfl, rfl⟩
  intro a ha hk
  have ha1 : a ∈ c.entryList := by rw [hrl]; exact List.mem_append_left _ ha
  have he1 : ele ∈ c.entryList := by rw [hrl]; simp
  have hae : a = ele := key_injective h ha1 he1 (by rw [h3]; exact hk)
  have := List.nodup_append.1 hnd
  exact this.2.2 (hae ▸ ha) (List.mem_singleton_self ele)

/-- Witness of C17: the store on which the callback of `TestOnEvicted` first fires,
inside the loop of `Add("k2", "k2")`: 14 bytes counted against `maxBytes = 10`, the
oldest entry `"key1"`; the callback sees 4 bytes left. -/
theorem C17_callback_sees_removal_witness :
    (addEntry (addEntry (New 10 true) "key1" (StringV "123456")) "k2" (StringV "k2")).OnEvicted
      = true ∧
    (addEntry (addEntry (New 10 true) "key1" (StringV "123456")) "k2"
      (StringV "k2")).currentBytes = 14 ∧
    ∃ x, (RemoveOldest
        (addEntry (addEntry (New 10 true) "key1" (StringV "123456")) "k2" (StringV "k2"))).calls
        = [x] ∧ x.key = "key1" ∧ mapGet x.seenCache "key1" = none ∧ x.seenBytes = 4 := by
  refine ⟨rfl, by decide, ?_⟩
  obtain ⟨x, h1, h2, _, h4, _, h6, _⟩ := C17_callback_sees_removal
    (addEntry (addEntry (New 10 true) "key1" (StringV "123456")) "k2" (StringV "k2"))
    (Inv_addEntry (Inv_addEntry (Inv_New 10 true) "key1" (StringV "123456")) "k2"
      (StringV "k2"))
    rfl [⟨"k2", StringV "k2"⟩] ⟨"key1", StringV "123456"⟩ (by decide)
  exact ⟨x, h1, h2, h4, h6.trans (by decide)⟩

/-- C18 (structural well-formedness): in every reachable store no key occurs twice in
the recency ordering, no key occurs twice in the lookup index, the ordering has as
many elements as the index has keys, and every binding of the index points to an
element of the ordering whose entry has the bound key. -/
theorem C18_well_formed (c : Cache) (h : Reachable c) :
    (c.entries.map entry.key).Nodup ∧ (c.cache.map Prod.fst).Nodup ∧
    c.entryList.length = c.cache.length ∧
    ∀ k ele, mapGet c.cache k = some ele → ele ∈ c.entryList ∧ (c.heap ele).key = k := by
  have hi := h.inv
  refine ⟨hi.keys_nodup, hi.keys, ?_, hi.index⟩
  have hp : (c.entries.map entry.key).Perm (c.cache.map Prod.fst) :=
    (List.perm_ext_iff_of_nodup hi.keys_nodup hi.keys).2 (fun k => (hi.mem_keys_iff k).symm)
  simpa [Cache.entries] using hp.length_eq

/-- Witness of C18: the store of `TestRemoveOldest`, two elements and two keys. -/
theorem C18_well_formed_witness :
    (twoKeys.entries.map entry.key).Nodup ∧ twoKeys.entryList.length = 2 ∧
    twoKeys.cache.length = 2 :=
  have h := C18_well_formed twoKeys twoKeys_reachable
  ⟨h.1, by decide, by decide⟩

/-- C19 as stated fails: after `New(MaxInt64, nil)`, `Add("a", v)` with
`v.Len() = MaxInt64 - 1` and `Add("b", "")`, two calls on keys that are not stored,
both entries are stored, their sizes sum to `2^63`, and the `int64` counter
`currentBytes` has wrapped to `-2^63`: it is negative and is not the sum. -/
theorem C19_currentBytes_wraps_below_zero :
    ∃ c, adds 0 (New 9223372036854775807 false)
        [("a", ⟨"", 9223372036854775806⟩), ("b", StringV "")] = some c ∧
      FreshReachable c ∧
      c.entries = [⟨"b", StringV ""⟩, ⟨"a", ⟨"", 9223372036854775806⟩⟩] ∧
      c.storedBytes = 9223372036854775808 ∧ c.currentBytes = -9223372036854775808 := by
  refine ⟨_, rfl, ?_, by decide, by decide, by decide⟩
  exact FreshReachable.add 0 "b" (StringV "")
    (FreshReachable.add 0 "a" ⟨"", 9223372036854775806⟩
      (FreshReachable.new 9223372036854775807 false) (by decide) rfl)
    (by decide) rfl

/-- C19, amended: in every store reached from `New` by `Add`, `Get` and `RemoveOldest`
calls in which each `Add` is on a key that is not stored at the time and the sizes
of the stored entries and of the added entry sum to at most `2^63 - 1`,
`currentBytes` is the sum over the stored entries of `len(key) + value.Len()`; it is
0 when the store is empty and never negative. -/
theorem C19_exact_accounting_without_updates (c : Cache) (h : BoundedFreshReachable c) :
    c.currentBytes = c.storedBytes ∧ (c.entries = [] → c.currentBytes = 0) ∧
    0 ≤ c.currentBytes := by
  have hacc : c.currentBytes = c.storedBytes := by
    induction h with
    | new m o => rfl
    | add fuel key value hc hfresh hfit he ih =>
      have hi := hc.toReachable.inv
      have hex := exact_addEntry_of_absent hi ih (absent_of_no_entry hi hfresh) value hfit
      exact exact_evictLoop fuel (Inv_addEntry hi key value) hex.1 hex.2 he
    | get key _ ih => rw [currentBytes_Get, storedBytes_Get]; exact ih
    | removeOldest hc ih =>
      exact (exact_RemoveOldest hc.toReachable.inv ih hc.toReachable.ranged.2).1
  refine ⟨hacc, ?_, ?_⟩
  · intro he
    rw [hacc, Cache.storedBytes, he]
    rfl
  · rw [hacc]
    exact storedBytes_nonneg c

/-- Witness of C19: the store of `TestRemoveOldest`, built by two `Add` calls on new
keys, holds 20 bytes. -/
theorem C19_exact_accounting_without_updates_witness :
    twoKeys.currentBytes = 20 ∧ twoKeys.currentBytes = twoKeys.storedBytes :=
  have h := C19_exact_accounting_without_updates twoKeys
    (BoundedFreshReachable.add 0 "key2" (StringV "value2")
      (BoundedFreshReachable.add 0 "key1" (StringV "value1")
        (BoundedFreshReachable.new 20 false) (by decide) (by decide) rfl)
      (by decide) (by decide) rfl)
  ⟨by decide, h.1⟩

/-- C20 (re-adding the same pair is idempotent): when `Add(K, v)` on a reachable store
returns the store `c1`, a second `Add(K, v)` on `c1` returns as well, and the store
it returns has the `currentBytes`, the entries (keys and values, in their recency
order), the keys of the lookup index and the `maxBytes` of `c1`. -/
theorem C20_readd_is_idempotent (c : Cache) (h : Reachable c) (fuel : Nat) (key : String)
    (value : Value) (c1 : Cache) (hadd : Add fuel c key value = some c1) :
    (∃ fuel2 c2, Add fuel2 c1 key value = some c2) ∧
    ∀ fuel2 c2, Add fuel2 c1 key value = some c2 →
      c2.currentBytes = c1.currentBytes ∧ c2.entries = c1.entries ∧
      c2.cache.map Prod.fst = c1.cache.map Prod.fst ∧ c2.maxBytes = c1.maxBytes := by
  have hi := h.inv
  have hi1 := Inv_Add hi hadd
  have hr1 := (Reachable.add fuel key value h hadd).ranged
  have hexit := evictLoop_exit hadd
  -- the second call returns a store `d` with the same contents
  have hmain : ∃ fuel2 d, Add fuel2 c1 key value = some d ∧
      d.currentBytes = c1.currentBytes ∧ d.entries = c1.entries ∧
      d.cache.map Prod.fst = c1.cache.map Prod.fst ∧ d.maxBytes = c1.maxBytes := by
    rcases Add_head hi hadd with hem | ⟨hd, tl, hl, hhd⟩
    · -- the first call evicted everything, `K` included
      obtain ⟨hd0, tl0, hl0, hhd0⟩ := addEntry_head hi key value
      have hbig := evictLoop_emptied fuel (Inv_addEntry hi key value)
        (Ranged_addEntry c key value) hl0 hadd hem
      rw [hhd0] at hbig
      have hcache : c1.cache = [] := hi1.cache_nil hem
      have habs : mapGet c1.cache key = none := by rw [hcache]; rfl
      have hi2 := Inv_addEntry hi1 key value
      have hl2 : (addEntry c1 key value).entryList = [] ++ [c1.next] := by
        rw [addEntry_of_absent habs, hem]; rfl
      have hE := RemoveOldest_eq hi2 hl2
      have hheap : (addEntry c1 key value).heap c1.next = ⟨key, value⟩ := by
        rw [addEntry_of_absent habs]
        exact Function.update_same _ _ _
      have hcb2 : (addEntry c1 key value).currentBytes
          = int64 (c1.currentBytes + (⟨key, value⟩ : entry).size) := by
        rw [addEntry_of_absent habs]; rfl
      have hmax2 : (addEntry c1 key value).maxBytes = c1.maxBytes := addEntry_maxBytes _ _ _
      have hR1 : (RemoveOldest (addEntry c1 key value)).currentBytes = c1.currentBytes := by
        rw [hE, hheap]
        show int64 ((addEntry c1 key value).currentBytes - _) = _
        rw [hcb2, int64_add_sub_cancel, int64_of_range hr1.1 hr1.2]
      have hR2 : (RemoveOldest (addEntry c1 key value)).maxBytes = c1.maxBytes := by
        rw [hE]; exact hmax2
      have hR3 : (RemoveOldest (addEntry c1 key value)).entryList = [] := by rw [hE]
      have hR4 : (RemoveOldest (addEntry c1 key value)).cache = [] :=
        (Inv_RemoveOldest hi2).cache_nil hR3
      refine ⟨1, RemoveOldest (addEntry c1 key value), ?_, hR1, ?_, ?_, hR2⟩
      · show evictLoop 1 (addEntry c1 key value) = _
        rw [evictLoop_of_cond (by rw [hmax2]; exact hbig.1) (by rw [hmax2, hcb2]; exact hbig.2)]
        apply evictLoop_of_not_cond
        rw [hR1, hR2]
        exact hexit
      · simp [Cache.entries, hR3, hem]
      · rw [hR4, hcache]
    · -- `K` is at the front of `c1` with the value `v`: nothing changes
      have hself := addEntry_self_of_head hi1 hr1 hl hhd
      refine ⟨0, c1, ?_, rfl, rfl, rfl, rfl⟩
      show evictLoop 0 (addEntry c1 key value) = some c1
      rw [hself]
      exact evictLoop_of_not_cond hexit 0
  obtain ⟨f, d, hd1, hd2⟩ := hmain
  refine ⟨⟨f, d, hd1⟩, ?_⟩
  intro fuel2 c2 h2
  have : c2 = d := evictLoop_det _ _ h2 hd1
  rw [this]
  exact hd2

/-- Witness of C20: `Add("key1", "value1")` on the new store `New(20, nil)`, twice. -/
theorem C20_readd_is_idempotent_witness :
    ∃ c1 c2, Add 0 (New 20 false) "key1" (StringV "value1") = some c1 ∧
      Add 0 c1 "key1" (StringV "value1") = some c2 ∧
      c2.currentBytes = c1.currentBytes ∧ c2.entries = c1.entries :=
  have h := (C20_readd_is_idempotent (New 20 false) (Reachable.new 20 false) 0 "key1"
    (StringV "value1") _ rfl).2 0 _ rfl
  ⟨_, _, rfl, rfl, h.1, h.2.1⟩

end lru
